import Mathlib

/-!
# Category Hierarchy Service — verification of the book-management backend

This file gives a shallow embedding of the category-hierarchy code of the
repository (`src/backend/src/controllers/categoryController.js` together with
the `Category` Sequelize model) and proves or refutes the specification
claims about it.

The persistent store is modelled arena-style, as the list of category rows
together with the auto-increment counter.  Request-level JavaScript values
(which may be `undefined`, `null`, a number or a string, and whose truthiness
the controller tests with `if (parentId)`) are modelled by `JsVal`.
Each controller function is transcribed as a pure function from the store to
a result together with the store after the call; failure branches return the
store unchanged, which is what the JavaScript code does (no mutation happens
before a 4xx response is produced).

`findAllChildrenIds` in the source is an unguarded recursive traversal with
no visited-set, so it need not terminate on a corrupted (cyclic) store.  It
is embedded with an explicit fuel parameter: `none` means the recursion
exceeded the given depth budget, i.e. the JavaScript code would still be
recursing at that depth.
-/

namespace BookMgmt

/-- One row of the `Categories` table: `id` (auto-increment primary key),
`name`, and the nullable self-referential `parentId` (model `Category` in the
source). -/
structure CategoryNode where
  id : Nat
  name : String
  parentId : Option Nat
deriving DecidableEq, Repr

/-- The category store: the rows of the `Categories` table plus the
auto-increment counter that yields the next fresh id. -/
structure Store where
  nodes : List CategoryNode
  nextId : Nat
deriving DecidableEq, Repr

/-- `Category.findByPk(i)`: look a row up by primary key. -/
def findByPk (s : Store) (i : Nat) : Option CategoryNode :=
  s.nodes.find? (fun n => n.id == i)

/-- `Category.findAll({ where: { parentId: p } })`: the rows whose `parentId`
equals `p`. -/
def childNodes (s : Store) (p : Nat) : List CategoryNode :=
  s.nodes.filter (fun n => n.parentId == some p)

/-- The ids of the direct children of `p` (what the recursive helper reads at
each level). -/
def childIdsOf (s : Store) (p : Nat) : List Nat :=
  (childNodes s p).map (fun n => n.id)

/-- The parent pointer of node `x` in the store: `none` when `x` has no row or
its row is a root. -/
def pF (s : Store) (x : Nat) : Option Nat :=
  (findByPk s x).bind (fun n => n.parentId)

/-- `n`-fold iteration of the parent pointer starting at `x`. -/
def pIter (s : Store) : Nat → Nat → Option Nat
  | 0, x => some x
  | n + 1, x => (pF s x).bind (pIter s n)

/-- `x` is a (strict, any-depth) descendant of `a`: following parent pointers
from `x` reaches `a` in at least one step.  This is the semantics of the
spec's `listDescendantIds`. -/
def Descendant (s : Store) (a x : Nat) : Prop :=
  ∃ n, 0 < n ∧ pIter s n x = some a

/-- Bounded, executable descendant test.  On a well-formed forest store any
ancestor chain is shorter than the number of rows, so the bound is exact
there; it is what the database-level `ON DELETE CASCADE` of the `children`
association removes transitively. -/
def descB (s : Store) (x a : Nat) : Bool :=
  (List.range (s.nodes.length + 1)).any (fun k => pIter s (k + 1) x == some a)

/-- The forest invariant of the spec: no node is its own ancestor, directly
or transitively, under the parent relation. -/
def Forest (s : Store) : Prop :=
  ∀ x n, 0 < n → pIter s n x ≠ some x

/-- Executable forest check (cycles in a finite functite store always show up
at some stored id within `nodes.length` steps). -/
def forestB (s : Store) : Bool :=
  s.nodes.all (fun nd =>
    (List.range s.nodes.length).all (fun k => pIter s (k + 1) nd.id != some nd.id))

/-- Well-formedness of the store, as guaranteed by the database schema:
primary keys are distinct, auto-increment keys are positive and below the
counter, and the `parentId` foreign key references an existing row. -/
def storeWF (s : Store) : Bool :=
  decide ((s.nodes.map (fun n => n.id)).Nodup) &&
  s.nodes.all (fun n => decide (1 ≤ n.id) && decide (n.id < s.nextId)) &&
  s.nodes.all (fun n =>
    match n.parentId with
    | none => true
    | some p => s.nodes.any (fun m => m.id == p))

/-- A request-body JavaScript value, as far as the controller observes it:
`undefined`, `null`, a (non-negative) number, or a string. -/
inductive JsVal where
  | undef
  | null
  | num (n : Nat)
  | str (s : String)
deriving DecidableEq, Repr

/-- JavaScript truthiness, as tested by `if (parentId)`. -/
def JsVal.truthy : JsVal → Bool
  | .undef => false
  | .null => false
  | .num n => n != 0
  | .str s => s != ""

/-- The id a request value denotes when used as a key (`parseInt` /
Sequelize key coercion); a non-numeric string yields `none` (`NaN`, which no
row matches). -/
def JsVal.asId : JsVal → Option Nat
  | .num n => some n
  | .str s => s.toNat?
  | _ => none

/-- `findByPk` lifted to a possibly missing key (`findByPk(NaN)` finds
nothing). -/
def findByPkOpt (s : Store) : Option Nat → Option CategoryNode
  | none => none
  | some i => findByPk s i

/-- Outcome of `createCategory`: HTTP 201 with the new row, 400, or 404. -/
inductive CreateOut where
  | created (node : CategoryNode)
  | validationErr
  | notFoundErr
deriving DecidableEq, Repr

/-- Transcription of `createCategory`: reject a falsy `name` (400); if
`parentId` is truthy require the referenced row to exist (404); otherwise
insert a fresh row whose `parentId` is `parentId || null`. -/
def createCategory (s : Store) (name : String) (parentId : JsVal) :
    CreateOut × Store :=
  if name == "" then (.validationErr, s)
  else if parentId.truthy then
    match findByPkOpt s parentId.asId with
    | none => (.notFoundErr, s)
    | some _ =>
      let node : CategoryNode := ⟨s.nextId, name, parentId.asId⟩
      (.created node, ⟨s.nodes ++ [node], s.nextId + 1⟩)
  else
    let node : CategoryNode := ⟨s.nextId, name, none⟩
    (.created node, ⟨s.nodes ++ [node], s.nextId + 1⟩)

/-- One level of the recursive helper inside `findAllChildrenIds`: walk a
list of sibling ids, emitting each id followed by the result of recursing
into its children with `child` (the traversal one nesting level deeper). -/
def goSiblings (s : Store) (child : List Nat → Option (List Nat)) :
    List Nat → Option (List Nat)
  | [] => some []
  | k :: ks =>
    match child (childIdsOf s k) with
    | none => none
    | some sub =>
      match goSiblings s child ks with
      | none => none
      | some rest => some (k :: (sub ++ rest))

/-- Transcription of the recursive helper inside `findAllChildrenIds`:
process a worklist of sibling ids; for each, emit the id, then recurse into
its children (one fuel unit per nesting level, matching the JavaScript call
depth).  `none` means the recursion depth exceeded `fuel`. -/
def findChildrenAux (s : Store) : Nat → List Nat → Option (List Nat)
  | 0, l => match l with
    | [] => some []
    | _ :: _ => none
  | fuel + 1, l => goSiblings s (findChildrenAux s fuel) l

/-- Transcription of `findAllChildrenIds(categoryId)`: depth-first collection
of all child ids below `categoryId`, with no visited-set; `none` when the
recursion does not finish within `fuel` levels. -/
def findAllChildrenIds (s : Store) (fuel : Nat) (categoryId : Nat) :
    Option (List Nat) :=
  findChildrenAux s fuel (childIdsOf s categoryId)

/-- Outcome of `updateCategory`: HTTP 200 with the updated row, 400, or
404. -/
inductive UpdateOut where
  | updated (node : CategoryNode)
  | validationErr
  | notFoundErr
deriving DecidableEq, Repr

/-- The row after `category.update(updateData)`: `name` is set when the
request supplied one, and `parentId` is set to `parentId || null` when the
request field was not `undefined`. -/
def applyUpdate (c : CategoryNode) (name : Option String) (parentId : JsVal) :
    CategoryNode :=
  { c with
    name := name.getD c.name
    parentId :=
      if parentId == JsVal.undef then c.parentId
      else if parentId.truthy then parentId.asId
      else none }

/-- Replace the row with primary key `i` (primary keys never change under
`update`). -/
def replaceNode (s : Store) (i : Nat) (upd : CategoryNode) : Store :=
  ⟨s.nodes.map (fun n => if n.id == i then upd else n), s.nextId⟩

/-- Transcription of `updateCategory`.  The cycle check runs the unguarded
traversal, so the whole call is `Option`-valued: `none` is the case where
`findAllChildrenIds` would not terminate within `nodes.length + 1` levels of
recursion (impossible below on well-formed forest stores). -/
def updateCategory (s : Store) (id : Nat) (name : Option String)
    (parentId : JsVal) : Option (UpdateOut × Store) :=
  match findByPk s id with
  | none => some (.notFoundErr, s)
  | some category =>
    if parentId.truthy then
      match parentId.asId with
      | none => some (.notFoundErr, s)
      | some pid =>
        match findByPk s pid with
        | none => some (.notFoundErr, s)
        | some _ =>
          if pid == id then some (.validationErr, s)
          else
            match findAllChildrenIds s (s.nodes.length + 1) id with
            | none => none
            | some childIds =>
              if pid ∈ childIds then some (.validationErr, s)
              else
                let upd := applyUpdate category name parentId
                some (.updated upd, replaceNode s id upd)
    else
      let upd := applyUpdate category name parentId
      some (.updated upd, replaceNode s id upd)

/-- Outcome of `deleteCategory`: HTTP 200 with the reported
`affectedChildCategories` count, or 404. -/
inductive DeleteOut where
  | deleted (affectedChildCategories : Nat)
  | notFoundErr
deriving DecidableEq, Repr

/-- Transcription of `deleteCategory`: look the row up (404 when absent),
count the direct children (`findAll({ where: { parentId: id } })`), then
`destroy()` the row.  The `children` association of the `Category` model is
declared `onDelete: 'CASCADE'`, so the database removes, transitively, every
row whose parent chain reaches the destroyed row; on a well-formed forest
store that is exactly `descB`. -/
def deleteCategory (s : Store) (id : Nat) : DeleteOut × Store :=
  match findByPk s id with
  | none => (.notFoundErr, s)
  | some _ =>
    let children := childNodes s id
    let s' : Store :=
      ⟨s.nodes.filter (fun n => !(n.id == id || descB s n.id id)), s.nextId⟩
    (.deleted children.length, s')

/-- A tree-shaped response row: a category together with its nested
`children`. -/
inductive CatTree where
  | node (cat : CategoryNode) (children : List CatTree)

/-- The category at the root of a response tree. -/
def catOf : CatTree → CategoryNode
  | .node c _ => c

/-- The nested `children` of the first tree of a response list (used to probe
response shapes). -/
def headChildren (l : List CatTree) : List CatTree :=
  match l with
  | .node _ cs :: _ => cs
  | [] => []

/-- Lexicographic code-point comparison of names (the collation behind
`ORDER BY name ASC`). -/
def charsLe : List Char → List Char → Bool
  | [], _ => true
  | _ :: _, [] => false
  | c :: cs, d :: ds =>
    if c.toNat < d.toNat then true
    else if d.toNat < c.toNat then false
    else charsLe cs ds

/-- The `ORDER BY name ASC` relation used at every level of the listing. -/
def byName (a b : CategoryNode) : Prop := charsLe a.name.data b.name.data = true

instance : DecidableRel byName := fun a b =>
  inferInstanceAs (Decidable (charsLe a.name.data b.name.data = true))

theorem charsLe_total (a b : List Char) : charsLe a b = true ∨ charsLe b a = true := by
  induction a generalizing b with
  | nil => exact .inl rfl
  | cons c cs ih =>
    cases b with
    | nil => exact .inr rfl
    | cons d ds =>
      rcases Nat.lt_trichotomy c.toNat d.toNat with h | h | h
      · exact .inl (by simp [charsLe, h])
      · rcases ih ds with h' | h' <;> [left; right] <;>
          simp [charsLe, h, h']
      · exact .inr (by simp [charsLe, h])

theorem charsLe_trans {a b c : List Char} (h1 : charsLe a b = true)
    (h2 : charsLe b c = true) : charsLe a c = true := by
  induction a generalizing b c with
  | nil => rfl
  | cons x xs ih =>
    cases b with
    | nil => simp [charsLe] at h1
    | cons y ys =>
      cases c with
      | nil => simp [charsLe] at h2
      | cons z zs =>
        simp only [charsLe] at h1 h2 ⊢
        split_ifs at h1 h2 ⊢ <;> first
          | rfl
          | omega
          | (exact ih h1 h2)

instance : IsTotal CategoryNode byName :=
  ⟨fun x y => charsLe_total x.name.data y.name.data⟩

instance : IsTrans CategoryNode byName := ⟨fun _ _ _ h h' => charsLe_trans h h'⟩

/-- Sort rows by `name` ascending. -/
def sortByName (l : List CategoryNode) : List CategoryNode :=
  l.insertionSort byName

/-- Transcription of `getAllCategories` (the `search` filter is not
supplied).  With `includeChildren` true the top level is every category and
each carries its children and grandchildren — the `include` is nested exactly
twice in the source, so deeper descendants are absent — every produced level
ordered by name.  With `includeChildren` false the `include` list is empty
but the `order` array still names the `children` and `children->children`
associations; those are not joined, the database rejects the query (unknown
column in `ORDER BY`), and the handler falls into its catch block returning
the 500 error response instead of a listing — modelled as `none`. -/
def getAllCategories (s : Store) (includeChildren : Bool) :
    Option (List CatTree) :=
  if includeChildren then
    some ((sortByName s.nodes).map (fun n =>
      .node n ((sortByName (childNodes s n.id)).map (fun c =>
        .node c ((sortByName (childNodes s c.id)).map (fun g =>
          .node g []))))))
  else
    none

/-- Modelled from the spec: nest children recursively below a node, ordered
by name at every level, down to depth `d`. -/
def specNest (s : Store) : Nat → CategoryNode → CatTree
  | 0, n => .node n []
  | d + 1, n => .node n ((sortByName (childNodes s n.id)).map (specNest s d))

/-- Modelled from the spec: `listTree(rootFilter?)` — the ordered sequence of
nodes with children nested recursively (to arbitrary depth: `nodes.length`
levels suffice on any forest store), `rootFilter` restricting the top level
to roots. -/
def specListTree (s : Store) (rootFilter : Bool) : List CatTree :=
  let top := if rootFilter then s.nodes.filter (fun n => n.parentId == none)
             else s.nodes
  (sortByName top).map (specNest s s.nodes.length)

/-! ## Price formatting and parsing (`bookController.js`) -/

/-- The decimal digits of `m`, most significant first, as characters
(`"0"` for zero, as `toLocaleString` prints a zero integer part). -/
def natStr (m : Nat) : List Char :=
  if m = 0 then ['0'] else ((Nat.digits 10 m).reverse).map Nat.digitChar

/-- A three-digit zero-padded group (`m < 1000`), as `toLocaleString`
renders every thousands group after the first. -/
def pad3 (m : Nat) : List Char :=
  [Nat.digitChar (m / 100), Nat.digitChar (m / 10 % 10), Nat.digitChar (m % 10)]

/-- The integer part as rendered by `toLocaleString('id-ID')`: decimal
digits grouped in threes separated by `'.'`. -/
def groupThousands (m : Nat) : List Char :=
  if _h : m < 1000 then natStr m
  else groupThousands (m / 1000) ++ '.' :: pad3 (m % 1000)
decreasing_by
  exact Nat.div_lt_self (by omega) (by norm_num)

/-- The two forced fraction digits (`minimumFractionDigits: 2`,
`maximumFractionDigits: 2`) for a cent value `c < 100`. -/
def pad2 (c : Nat) : List Char :=
  [Nat.digitChar (c / 10 % 10), Nat.digitChar (c % 10)]

/-- Transcription of `formatPrice` evaluated at the non-negative decimal
`n / 100` (every decimal with at most two fractional digits is `n / 100` for
a unique cent count `n`): the string
`"Rp. " + toLocaleString('id-ID', 2 fraction digits)`, i.e. thousands
separated by `'.'` and the decimal comma followed by exactly two digits. -/
def formatPrice (n : Nat) : String :=
  ⟨'R' :: 'p' :: '.' :: ' ' :: (groupThousands (n / 100) ++ ',' :: pad2 (n % 100))⟩

/-- `String.prototype.replace(pat, '')` with a string pattern: remove the
first occurrence of `pat`. -/
def replaceFirst (pat : List Char) : List Char → List Char
  | [] => []
  | c :: rest =>
    if pat.isPrefixOf (c :: rest) then (c :: rest).drop pat.length
    else c :: replaceFirst pat rest

/-- `String.prototype.replace(',', '.')`: rewrite the first comma to a
dot. -/
def commaToDot : List Char → List Char
  | [] => []
  | c :: rest => if c = ',' then '.' :: rest else c :: commaToDot rest

/-- `String.prototype.includes(pat)`. -/
def containsSub (pat : List Char) : List Char → Bool
  | [] => pat.isPrefixOf ([] : List Char)
  | c :: rest => pat.isPrefixOf (c :: rest) || containsSub pat rest

/-- The numeric value of a run of decimal digit characters (Horner form, as
`parseFloat` accumulates digits). -/
def digitsVal (l : List Char) : Nat :=
  l.foldl (fun acc c => 10 * acc + (c.toNat - 48)) 0

/-- The fraction digit run after the decimal point, when one follows the
integer digits (`parseFloat` keeps consuming digits after a single dot). -/
def fracPart : List Char → List Char
  | '.' :: r => r.takeWhile (fun c => c.isDigit)
  | _ => []

/-- `parseFloat` on the well-formed numeric strings that occur here:
optional leading spaces, an integer digit run, and an optional `'.'` followed
by a fraction digit run; the value is exact (the claims quantify over
decimals, so the embedding uses `ℚ`). -/
def parseFloatQ (l0 : List Char) : ℚ :=
  (digitsVal ((l0.dropWhile (fun c => c == ' ')).takeWhile
    (fun c => c.isDigit)) : ℚ) +
  (digitsVal (fracPart ((l0.dropWhile (fun c => c == ' ')).dropWhile
    (fun c => c.isDigit))) : ℚ) /
    (10 : ℚ) ^ (fracPart ((l0.dropWhile (fun c => c == ' ')).dropWhile
      (fun c => c.isDigit))).length

/-- Transcription of `parsePrice` on a string input: falsy (empty) gives 0;
a string containing `"Rp."` has the prefix removed, every `'.'` (thousands
separator) stripped, the decimal comma turned into a dot, and is then fed to
`parseFloat`; otherwise the string is parsed directly. -/
def parsePrice (s : String) : ℚ :=
  if s.data.isEmpty then 0
  else if containsSub ['R', 'p', '.'] s.data then
    parseFloatQ (commaToDot ((replaceFirst ['R', 'p', '.'] s.data).filter
      (fun c => c ≠ '.')))
  else parseFloatQ s.data

/-! ## Concrete stores used by witnesses and counterexamples -/

/-- The initial, empty store. -/
def emptyStore : Store := ⟨[], 1⟩

/-- The spec scenario: root `Fiction` (1), child `Sci-Fi` (2), grandchild
`Cyberpunk` (3). -/
def chain3 : Store :=
  ⟨[⟨1, "Fiction", none⟩, ⟨2, "Sci-Fi", some 1⟩, ⟨3, "Cyberpunk", some 2⟩], 4⟩

/-- A four-deep chain `a → b → c → d` (depth-3 descendants exist). -/
def chain4 : Store :=
  ⟨[⟨1, "a", none⟩, ⟨2, "b", some 1⟩, ⟨3, "c", some 2⟩, ⟨4, "d", some 3⟩], 5⟩

/-- A corrupted store whose parent relation is a two-cycle. -/
def cycStore : Store := ⟨[⟨1, "a", some 2⟩, ⟨2, "b", some 1⟩], 3⟩

/-- Two independent roots. -/
def twoRoots : Store := ⟨[⟨1, "a", none⟩, ⟨2, "b", none⟩], 3⟩

/-! ## Basic lookup lemmas -/

/-- The primary keys present in the store. -/
def idsOf (s : Store) : List Nat := s.nodes.map (fun n => n.id)

theorem findByPk_eq_some {s : Store} {x : Nat} {nd : CategoryNode}
    (h : findByPk s x = some nd) : nd ∈ s.nodes ∧ nd.id = x := by
  refine ⟨List.mem_of_find?_eq_some h, ?_⟩
  simpa using List.find?_some h

theorem findByPk_eq_none {s : Store} {x : Nat} :
    findByPk s x = none ↔ ∀ nd ∈ s.nodes, nd.id ≠ x := by
  simp [findByPk, List.find?_eq_none]

theorem find?_id_of_mem {l : List CategoryNode} {x : Nat} {nd : CategoryNode}
    (hnd : (l.map (fun n => n.id)).Nodup) (hmem : nd ∈ l) (hid : nd.id = x) :
    l.find? (fun n => n.id == x) = some nd := by
  induction l with
  | nil => cases hmem
  | cons a l ih =>
    simp only [List.map_cons, List.nodup_cons] at hnd
    rcases List.mem_cons.1 hmem with rfl | hmem'
    · simp [List.find?_cons, hid]
    · have hax : (a.id == x) = false := by
        apply beq_false_of_ne
        intro hcontra
        exact hnd.1 (by
          rw [hcontra, ← hid]
          exact List.mem_map_of_mem (fun n => n.id) hmem')
      simp [List.find?_cons, hax]
      exact ih hnd.2 hmem'

theorem findByPk_of_mem {s : Store} {x : Nat} {nd : CategoryNode}
    (hnd : (idsOf s).Nodup) (hmem : nd ∈ s.nodes) (hid : nd.id = x) :
    findByPk s x = some nd :=
  find?_id_of_mem hnd hmem hid

theorem pF_eq_some {s : Store} {x p : Nat} (h : pF s x = some p) :
    ∃ nd ∈ s.nodes, nd.id = x ∧ nd.parentId = some p := by
  unfold pF at h
  cases hf : findByPk s x with
  | none => rw [hf] at h; cases h
  | some nd =>
    rw [hf] at h
    obtain ⟨hmem, hid⟩ := findByPk_eq_some hf
    exact ⟨nd, hmem, hid, h⟩

theorem pF_isSome_mem {s : Store} {x : Nat} (h : (pF s x).isSome) :
    x ∈ idsOf s := by
  unfold pF at h
  cases hf : findByPk s x with
  | none => rw [hf] at h; cases h
  | some nd =>
    obtain ⟨hmem, hid⟩ := findByPk_eq_some hf
    exact hid ▸ List.mem_map_of_mem (fun n => n.id) hmem

theorem pF_of_node {s : Store} {nd : CategoryNode}
    (hnd : (idsOf s).Nodup) (hmem : nd ∈ s.nodes) :
    pF s nd.id = nd.parentId := by
  unfold pF
  rw [findByPk_of_mem hnd hmem rfl]
  rfl

/-! ## Parent-chain arithmetic -/

theorem pIter_add (s : Store) (a b x : Nat) :
    pIter s (a + b) x = (pIter s a x).bind (pIter s b) := by
  induction a generalizing x with
  | zero => simp [pIter]
  | succ a ih =>
    have hab : a + 1 + b = (a + b) + 1 := by omega
    rw [hab]
    show (pF s x).bind (pIter s (a + b)) = ((pF s x).bind (pIter s a)).bind (pIter s b)
    cases hpf : pF s x with
    | none => rfl
    | some y => simp [ih]

theorem pIter_one (s : Store) (x : Nat) : pIter s 1 x = pF s x := by
  show (pF s x).bind (pIter s 0) = pF s x
  cases pF s x <;> rfl

theorem pIter_prefix {s : Store} {n j x : Nat} {y : Nat}
    (h : pIter s n x = some y) (hj : j ≤ n) : ∃ w, pIter s j x = some w := by
  have hd : n = j + (n - j) := by omega
  rw [hd, pIter_add] at h
  cases hw : pIter s j x with
  | none => rw [hw] at h; cases h
  | some w => exact ⟨w, rfl⟩

/-- Every intermediate stop of a parent chain that continues at least one
more step is the key of a stored row. -/
theorem pIter_mem_ids {s : Store} {n x w : Nat}
    (hw : pIter s n x = some w) {m : Nat} (hcont : (pIter s m x).isSome)
    (hm : n < m) : w ∈ idsOf s := by
  have hd : m = n + (m - n) := by omega
  rw [hd, pIter_add, hw] at hcont
  have hcont' : (pIter s (m - n) w).isSome := hcont
  have hd2 : m - n = 1 + (m - n - 1) := by omega
  rw [hd2, pIter_add, pIter_one] at hcont'
  cases hp : pF s w with
  | none => rw [hp] at hcont'; cases hcont'
  | some q => exact pF_isSome_mem (by rw [hp]; rfl)

/-- On a forest, a parent chain ending at a stored id is no longer than the
number of rows (its stops are pairwise distinct stored ids). -/
theorem forest_chain_bound {s : Store} (hF : Forest s) {n x y : Nat}
    (h : pIter s n x = some y) (hy : y ∈ idsOf s) : n ≤ s.nodes.length := by
  classical
  have hstop : ∀ j : Fin (n + 1), ∃ w, pIter s j.1 x = some w := by
    intro j
    exact pIter_prefix h (by omega)
  set f : Fin (n + 1) → Nat := fun j => (pIter s j.1 x).getD 0 with hf
  have hmaps : ∀ j : Fin (n + 1), f j ∈ (idsOf s).toFinset := by
    intro j
    obtain ⟨w, hw⟩ := hstop j
    have hwmem : w ∈ idsOf s := by
      rcases Nat.lt_or_ge j.1 n with hlt | hge
      · exact pIter_mem_ids hw (by rw [h]; rfl) hlt
      · have : j.1 = n := by omega
        rw [this] at hw
        rw [hw] at h
        cases h
        exact hy
    simp [hf, hw, List.mem_toFinset.2 hwmem]
  have hinj : Set.InjOn f (Finset.univ : Finset (Fin (n + 1))) := by
    intro i _ j _ hij
    by_contra hne
    have hne' : i.1 ≠ j.1 := fun hc => hne (Fin.ext hc)
    -- without loss of generality take the smaller index first
    rcases Nat.lt_or_ge i.1 j.1 with hlt | hge
    · obtain ⟨w, hw⟩ := hstop i
      obtain ⟨w', hw'⟩ := hstop j
      have hww : w = w' := by
        have := hij
        simp [hf, hw, hw'] at this
        exact this
      subst hww
      have hd : j.1 = i.1 + (j.1 - i.1) := by omega
      have := hw'
      rw [hd, pIter_add, hw] at this
      exact hF w (j.1 - i.1) (by omega) this
    · have hlt : j.1 < i.1 := by omega
      obtain ⟨w, hw⟩ := hstop j
      obtain ⟨w', hw'⟩ := hstop i
      have hww : w = w' := by
        have := hij
        simp [hf, hw, hw'] at this
        exact this.symm
      subst hww
      have hd : i.1 = j.1 + (i.1 - j.1) := by omega
      have := hw'
      rw [hd, pIter_add, hw] at this
      exact hF w (i.1 - j.1) (by omega) this
  have hcard := Finset.card_le_card_of_injOn f (fun a _ => hmaps a) hinj
  simp only [Finset.card_univ, Fintype.card_fin] at hcard
  have h1 : (idsOf s).toFinset.card ≤ (idsOf s).length := (idsOf s).toFinset_card_le
  have h2 : (idsOf s).length = s.nodes.length := by simp [idsOf]
  omega

/-- Any cycle in the parent relation yields a cycle of length at most
`nodes.length` based at a stored id. -/
theorem cycle_short {s : Store} {x n : Nat} (hn : 0 < n)
    (hcyc : pIter s n x = some x) :
    ∃ y ∈ idsOf s, ∃ m, 0 < m ∧ m ≤ s.nodes.length ∧ pIter s m y = some y := by
  classical
  -- every iterate of the cycle is defined
  have hall : ∀ m, ∃ w, pIter s m x = some w := by
    intro m
    induction m using Nat.strong_induction_on with
    | _ m ih =>
      rcases Nat.lt_or_ge m (n + 1) with hm | hm
      · exact pIter_prefix hcyc (by omega)
      · obtain ⟨w, hw⟩ := ih (m - n) (by omega)
        refine ⟨w, ?_⟩
        have hd : m = n + (m - n) := by omega
        rw [hd, pIter_add, hcyc]
        exact hw
  have hmem : ∀ m, ∃ w, pIter s m x = some w ∧ w ∈ idsOf s := by
    intro m
    obtain ⟨w, hw⟩ := hall m
    obtain ⟨w', hw'⟩ := hall (m + 1)
    exact ⟨w, hw, pIter_mem_ids hw (by rw [hw']; rfl) (by omega)⟩
  set N := s.nodes.length with hN
  set f : Fin (N + 1) → Nat := fun j => (pIter s j.1 x).getD 0 with hf
  have hmaps : ∀ j, f j ∈ (idsOf s).toFinset := by
    intro j
    obtain ⟨w, hw, hwm⟩ := hmem j.1
    simp [hf, hw, List.mem_toFinset.2 hwm]
  have hlt : (idsOf s).toFinset.card < (Finset.univ : Finset (Fin (N + 1))).card := by
    have h1 : (idsOf s).toFinset.card ≤ (idsOf s).length := (idsOf s).toFinset_card_le
    have h2 : (idsOf s).length = N := by simp [idsOf, hN]
    simp only [Finset.card_univ, Fintype.card_fin]
    omega
  obtain ⟨i, _, j, _, hne, hij⟩ :=
    Finset.exists_ne_map_eq_of_card_lt_of_maps_to hlt (fun a _ => hmaps a)
  -- the repeated value closes a short cycle
  have key : ∀ i j : Fin (N + 1), i.1 < j.1 → f i = f j →
      ∃ y ∈ idsOf s, ∃ m, 0 < m ∧ m ≤ N ∧ pIter s m y = some y := by
    intro i j hlt' hij'
    obtain ⟨w, hw, hwm⟩ := hmem i.1
    obtain ⟨w', hw', _⟩ := hmem j.1
    have hww : w = w' := by
      have := hij'
      simp [hf, hw, hw'] at this
      exact this
    subst hww
    refine ⟨w, hwm, j.1 - i.1, by omega, by omega, ?_⟩
    have hd : j.1 = i.1 + (j.1 - i.1) := by omega
    have := hw'
    rw [hd, pIter_add, hw] at this
    exact this
  rcases Nat.lt_or_ge i.1 j.1 with hlt' | hge
  · exact key i j hlt' hij
  · have hlt'' : j.1 < i.1 := by
      rcases Nat.lt_or_ge j.1 i.1 with h | h
      · exact h
      · exact absurd (Fin.ext (by omega)) hne
    exact key j i hlt'' hij.symm

/-- The executable forest check is sound. -/
theorem forestB_forest {s : Store} (hB : forestB s = true) : Forest s := by
  intro x n hn hcyc
  obtain ⟨y, hy, m, hm0, hmN, hmy⟩ := cycle_short hn hcyc
  simp only [forestB, List.all_eq_true] at hB
  obtain ⟨nd, hnd, hid⟩ := List.mem_map.1 hy
  have := hB nd hnd (m - 1) (List.mem_range.2 (by
    rcases Nat.lt_or_ge (m - 1) s.nodes.length with h | h
    · exact h
    · exfalso
      -- then m = nodes.length = 0 is impossible since y is a stored id
      have : s.nodes.length = 0 := by omega
      rw [List.length_eq_zero] at this
      rw [this] at hnd
      cases hnd))
  rw [hid] at this
  have hm1 : m - 1 + 1 = m := by omega
  rw [hm1] at this
  simp [hmy] at this

/-- The bounded descendant test is complete: any witnessed descendant is
found within the bound. -/
theorem descB_of_descendant {s : Store} (hF : Forest s) {a x : Nat}
    (ha : a ∈ idsOf s) (h : Descendant s a x) : descB s x a = true := by
  obtain ⟨n, hn, hchain⟩ := h
  have hb := forest_chain_bound hF hchain ha
  simp only [descB, List.any_eq_true]
  exact ⟨n - 1, List.mem_range.2 (by omega), by
    have : n - 1 + 1 = n := by omega
    rw [this, hchain]
    simp⟩

theorem descendant_of_descB {s : Store} {a x : Nat}
    (h : descB s x a = true) : Descendant s a x := by
  simp only [descB, List.any_eq_true] at h
  obtain ⟨k, _, hk⟩ := h
  exact ⟨k + 1, by omega, by simpa using hk⟩

/-- On a forest the bounded test decides `Descendant` for stored targets. -/
theorem descB_iff {s : Store} (hF : Forest s) {a x : Nat} (ha : a ∈ idsOf s) :
    descB s x a = true ↔ Descendant s a x :=
  ⟨descendant_of_descB, descB_of_descendant hF ha⟩

/-! ## Well-formedness -/

theorem storeWF_nodup {s : Store} (h : storeWF s = true) : (idsOf s).Nodup := by
  simp only [storeWF, Bool.and_eq_true, decide_eq_true_eq] at h
  exact h.1.1

theorem storeWF_idBounds {s : Store} (h : storeWF s = true) :
    ∀ n ∈ s.nodes, 1 ≤ n.id ∧ n.id < s.nextId := by
  simp only [storeWF, Bool.and_eq_true, List.all_eq_true, Bool.and_eq_true,
    decide_eq_true_eq] at h
  exact h.1.2

theorem storeWF_fk {s : Store} (h : storeWF s = true) :
    ∀ n ∈ s.nodes, ∀ p, n.parentId = some p → p ∈ idsOf s := by
  simp only [storeWF, Bool.and_eq_true, List.all_eq_true] at h
  intro n hn p hp
  have := h.2 n hn
  rw [hp] at this
  simp only [List.any_eq_true, beq_iff_eq] at this
  obtain ⟨m, hm, hmp⟩ := this
  exact hmp ▸ List.mem_map_of_mem (fun n => n.id) hm

theorem mem_ids_pos {s : Store} (h : storeWF s = true) {x : Nat}
    (hx : x ∈ idsOf s) : 1 ≤ x := by
  obtain ⟨nd, hnd, hid⟩ := List.mem_map.1 hx
  exact hid ▸ (storeWF_idBounds h nd hnd).1

/-! ## The descendant traversal -/

theorem childIdsOf_subset_ids {s : Store} {k : Nat} :
    childIdsOf s k ⊆ idsOf s := by
  intro c hc
  simp only [childIdsOf, childNodes, List.mem_map] at hc
  obtain ⟨nd, hnd, hid⟩ := hc
  exact hid ▸ List.mem_map_of_mem (fun n => n.id) (List.mem_of_mem_filter hnd)

theorem pF_of_childIds {s : Store} (hnd : (idsOf s).Nodup) {c k : Nat}
    (hc : c ∈ childIdsOf s k) : pF s c = some k := by
  simp only [childIdsOf, childNodes, List.mem_map, List.mem_filter] at hc
  obtain ⟨nd, ⟨hmem, hpar⟩, hid⟩ := hc
  rw [← hid, pF_of_node hnd hmem]
  simpa using hpar

theorem childIds_of_pF {s : Store} {c k : Nat} (h : pF s c = some k) :
    c ∈ childIdsOf s k := by
  obtain ⟨nd, hmem, hid, hpar⟩ := pF_eq_some h
  simp only [childIdsOf, childNodes, List.mem_map]
  exact ⟨nd, List.mem_filter.2 ⟨hmem, by simp [hpar]⟩, hid⟩

/-- The traversal terminates on any worklist whose members only head parent
chains shorter than the fuel. -/
theorem findChildrenAux_isSome {s : Store} (hnd : (idsOf s).Nodup) :
    ∀ fuel ks, (∀ k ∈ ks, ∀ x n, pIter s n x = some k → n < fuel) →
      (findChildrenAux s fuel ks).isSome := by
  intro fuel
  induction fuel using Nat.strong_induction_on with
  | _ fuel ihf =>
    intro ks
    cases fuel with
    | zero =>
      intro hb
      cases ks with
      | nil => rfl
      | cons k ks =>
        exact absurd (hb k (List.mem_cons_self k ks) k 0 rfl) (by omega)
    | succ f =>
      induction ks with
      | nil => intro hb; rfl
      | cons k ks ihk =>
        intro hb
        show (goSiblings s (findChildrenAux s f) (k :: ks)).isSome
        have hsub : (findChildrenAux s f (childIdsOf s k)).isSome := by
          apply ihf f (by omega)
          intro c hc x n hx
          have hk : pIter s (n + 1) x = some k := by
            rw [pIter_add, hx]
            show pIter s 1 c = some k
            rw [pIter_one]
            exact pF_of_childIds hnd hc
          have := hb k (List.mem_cons_self k ks) x (n + 1) hk
          omega
        have hrest : (findChildrenAux s (f + 1) ks).isSome := by
          apply ihk
          intro k' hk' x n hx
          exact hb k' (List.mem_cons_of_mem k hk') x n hx
        cases hs : findChildrenAux s f (childIdsOf s k) with
        | none => rw [hs] at hsub; cases hsub
        | some sub =>
          cases hr : findChildrenAux s (f + 1) ks with
          | none => rw [hr] at hrest; cases hrest
          | some rest =>
            show (goSiblings s (findChildrenAux s f) (k :: ks)).isSome
            simp only [goSiblings, hs]
            have hr' : goSiblings s (findChildrenAux s f) ks = some rest := hr
            rw [hr']
            rfl

/-- A produced result contains the worklist and is closed under taking
children. -/
theorem findChildrenAux_closed {s : Store} :
    ∀ fuel ks r, findChildrenAux s fuel ks = some r →
      (∀ k ∈ ks, k ∈ r) ∧ (∀ p ∈ r, ∀ c ∈ childIdsOf s p, c ∈ r) := by
  intro fuel
  induction fuel using Nat.strong_induction_on with
  | _ fuel ihf =>
    intro ks
    cases fuel with
    | zero =>
      intro r hr
      cases ks with
      | nil =>
        cases hr
        exact ⟨by simp, by simp⟩
      | cons k ks => cases hr
    | succ f =>
      induction ks with
      | nil =>
        intro r hr
        cases hr
        exact ⟨by simp, by simp⟩
      | cons k ks ihk =>
        intro r hr
        have hr' : goSiblings s (findChildrenAux s f) (k :: ks) = some r := hr
        simp only [goSiblings] at hr'
        cases hs : findChildrenAux s f (childIdsOf s k) with
        | none => rw [hs] at hr'; cases hr'
        | some sub =>
          rw [hs] at hr'
          cases hrest : goSiblings s (findChildrenAux s f) ks with
          | none => rw [hrest] at hr'; cases hr'
          | some rest =>
            rw [hrest] at hr'
            cases hr'
            have hsubIH := ihf f (by omega) (childIdsOf s k) sub hs
            have hrestIH := ihk rest hrest
            constructor
            · intro k' hk'
              rcases List.mem_cons.1 hk' with rfl | hmem
              · exact List.mem_cons_self _ _
              · exact List.mem_cons_of_mem _
                  (List.mem_append.2 (.inr (hrestIH.1 k' hmem)))
            · intro p hp c hc
              rcases List.mem_cons.1 hp with rfl | hmem
              · exact List.mem_cons_of_mem _
                  (List.mem_append.2 (.inl (hsubIH.1 c hc)))
              · rcases List.mem_append.1 hmem with hmem' | hmem'
                · exact List.mem_cons_of_mem _
                    (List.mem_append.2 (.inl (hsubIH.2 p hmem' c hc)))
                · exact List.mem_cons_of_mem _
                    (List.mem_append.2 (.inr (hrestIH.2 p hmem' c hc)))

/-- Everything the traversal emits is reachable from the worklist by
descending parent edges. -/
theorem findChildrenAux_sound {s : Store} (hnd : (idsOf s).Nodup) :
    ∀ fuel ks r, findChildrenAux s fuel ks = some r →
      ∀ x ∈ r, ∃ k ∈ ks, x = k ∨ ∃ m, 0 < m ∧ pIter s m x = some k := by
  intro fuel
  induction fuel using Nat.strong_induction_on with
  | _ fuel ihf =>
    intro ks
    cases fuel with
    | zero =>
      intro r hr
      cases ks with
      | nil => cases hr; simp
      | cons k ks => cases hr
    | succ f =>
      induction ks with
      | nil =>
        intro r hr
        cases hr
        simp
      | cons k ks ihk =>
        intro r hr
        have hr' : goSiblings s (findChildrenAux s f) (k :: ks) = some r := hr
        simp only [goSiblings] at hr'
        cases hs : findChildrenAux s f (childIdsOf s k) with
        | none => rw [hs] at hr'; cases hr'
        | some sub =>
          rw [hs] at hr'
          cases hrest : goSiblings s (findChildrenAux s f) ks with
          | none => rw [hrest] at hr'; cases hr'
          | some rest =>
            rw [hrest] at hr'
            cases hr'
            intro x hx
            rcases List.mem_cons.1 hx with rfl | hmem
            · exact ⟨x, List.mem_cons_self _ _, .inl rfl⟩
            · rcases List.mem_append.1 hmem with hmem' | hmem'
              · -- x sits below some child of k
                obtain ⟨c, hc, hcase⟩ :=
                  ihf f (by omega) (childIdsOf s k) sub hs x hmem'
                have hpc : pF s c = some k := pF_of_childIds hnd hc
                refine ⟨k, List.mem_cons_self _ _, .inr ?_⟩
                rcases hcase with rfl | ⟨m, hm, hchain⟩
                · exact ⟨1, by omega, by rw [pIter_one]; exact hpc⟩
                · refine ⟨m + 1, by omega, ?_⟩
                  rw [pIter_add, hchain]
                  show pIter s 1 c = some k
                  rw [pIter_one]
                  exact hpc
              · obtain ⟨k', hk', hcase⟩ := ihk rest hrest x hmem'
                exact ⟨k', List.mem_cons_of_mem _ hk', hcase⟩

/-- `findAllChildrenIds` terminates with fuel `nodes.length + 1` on any
well-formed forest store. -/
theorem findAllChildrenIds_total {s : Store} (hnd : (idsOf s).Nodup)
    (hF : Forest s) (a : Nat) :
    ∃ r, findAllChildrenIds s (s.nodes.length + 1) a = some r := by
  have h := findChildrenAux_isSome hnd (s.nodes.length + 1) (childIdsOf s a)
    (by
      intro k hk x n hx
      have := forest_chain_bound hF hx (childIdsOf_subset_ids hk)
      omega)
  cases hr : findChildrenAux s (s.nodes.length + 1) (childIdsOf s a) with
  | none => rw [hr] at h; cases h
  | some r => exact ⟨r, hr⟩

/-- Completeness: the produced list contains every descendant. -/
theorem findAllChildrenIds_complete {s : Store} {fuel a : Nat} {r : List Nat}
    (hr : findAllChildrenIds s fuel a = some r) {x : Nat}
    (hx : Descendant s a x) : x ∈ r := by
  have hcl := findChildrenAux_closed fuel (childIdsOf s a) r hr
  have main : ∀ n x, 0 < n → pIter s n x = some a → x ∈ r := by
    intro n
    induction n using Nat.strong_induction_on with
    | _ n ih =>
      intro x hn hchain
      cases n with
      | zero => omega
      | succ m =>
        have hstep : (pF s x).bind (pIter s m) = some a := hchain
        cases hp : pF s x with
        | none => rw [hp] at hstep; cases hstep
        | some p =>
          rw [hp] at hstep
          have hstep' : pIter s m p = some a := hstep
          cases m with
          | zero =>
            -- direct child of a
            cases hstep'
            exact hcl.1 x (childIds_of_pF hp)
          | succ m' =>
            have hpmem : p ∈ r := ih (m' + 1) (by omega) p (by omega) hstep'
            exact hcl.2 p hpmem x (childIds_of_pF hp)
  obtain ⟨n, hn, hchain⟩ := hx
  exact main n x hn hchain

/-- Soundness: everything in the produced list is a descendant. -/
theorem findAllChildrenIds_sound {s : Store} (hnd : (idsOf s).Nodup)
    {fuel a : Nat} {r : List Nat} (hr : findAllChildrenIds s fuel a = some r)
    {x : Nat} (hx : x ∈ r) : Descendant s a x := by
  obtain ⟨k, hk, hcase⟩ := findChildrenAux_sound hnd fuel (childIdsOf s a) r hr x hx
  have hpk : pF s k = some a := pF_of_childIds hnd hk
  rcases hcase with rfl | ⟨m, hm, hchain⟩
  · exact ⟨1, by omega, by rw [pIter_one]; exact hpk⟩
  · refine ⟨m + 1, by omega, ?_⟩
    rw [pIter_add, hchain]
    show pIter s 1 k = some a
    rw [pIter_one]
    exact hpk

/-! ## Preservation of the forest invariant -/

theorem pIter_congr {s s' : Store} (h : ∀ y, pF s' y = pF s y) :
    ∀ n x, pIter s' n x = pIter s n x := by
  intro n
  induction n with
  | zero => intro x; rfl
  | succ n ih =>
    intro x
    show (pF s' x).bind (pIter s' n) = (pF s x).bind (pIter s n)
    rw [h x]
    cases pF s x with
    | none => rfl
    | some z => exact ih z

/-- A store whose parent edges are a sub-relation of a forest's is a
forest. -/
theorem forest_of_subEdges {s s' : Store}
    (h : ∀ y, pF s' y = pF s y ∨ pF s' y = none) (hF : Forest s) :
    Forest s' := by
  have lift : ∀ n x z, pIter s' n x = some z → pIter s n x = some z := by
    intro n
    induction n with
    | zero => intro x z hz; exact hz
    | succ n ih =>
      intro x z hz
      have hz' : (pF s' x).bind (pIter s' n) = some z := hz
      cases hp : pF s' x with
      | none => rw [hp] at hz'; cases hz'
      | some w =>
        rw [hp] at hz'
        have hpw : pF s x = some w := by
          rcases h x with h' | h'
          · rw [← h']; exact hp
          · rw [h'] at hp; cases hp
        show (pF s x).bind (pIter s n) = some z
        rw [hpw]
        exact ih w z hz'
  intro x n hn hcyc
  exact hF x n hn (lift n x x hcyc)

/-- Chains that never pass through the modified node are unaffected by a
single-node parent change. -/
theorem pIter_agree {s s' : Store} {id0 : Nat}
    (hoff : ∀ y, y ≠ id0 → pF s' y = pF s y) :
    ∀ n x, (∀ k, k < n → pIter s' k x ≠ some id0) →
      pIter s' n x = pIter s n x := by
  intro n
  induction n with
  | zero => intro x _; rfl
  | succ n ih =>
    intro x hk
    have hx0 : x ≠ id0 := by
      have h0 := hk 0 (by omega)
      intro hcontra
      exact h0 (by rw [hcontra]; rfl)
    show (pF s' x).bind (pIter s' n) = (pF s x).bind (pIter s n)
    rw [hoff x hx0]
    cases hp : pF s x with
    | none => rfl
    | some z =>
      show pIter s' n z = pIter s n z
      apply ih
      intro k hkn hz
      apply hk (k + 1) (by omega)
      show (pF s' x).bind (pIter s' k) = some id0
      rw [hoff x hx0, hp]
      exact hz

/-- Re-pointing one node's parent preserves acyclicity as long as no cycle
through the re-pointed node is created. -/
theorem forest_of_update {s s' : Store} {id0 : Nat}
    (hoff : ∀ y, y ≠ id0 → pF s' y = pF s y) (hF : Forest s)
    (hnc : ∀ n, 0 < n → pIter s' n id0 ≠ some id0) : Forest s' := by
  intro x n hn hcyc
  by_cases hhit : ∃ k, k ≤ n ∧ pIter s' k x = some id0
  · obtain ⟨k, hkn, hk⟩ := hhit
    apply hnc n hn
    have e1 : pIter s' (k + n) x = pIter s' n id0 := by
      rw [pIter_add, hk]
      rfl
    rw [← e1, Nat.add_comm, pIter_add, hcyc]
    exact hk
  · push_neg at hhit
    rw [pIter_agree hoff n x (fun k hkn => hhit k (by omega))] at hcyc
    exact hF x n hn hcyc

/-- A store with no parent edge into `v` carries no chain into `v`. -/
theorem no_incoming_chain {t : Store} {v : Nat}
    (h : ∀ w, pF t w ≠ some v) :
    ∀ m y, 0 < m → pIter t m y ≠ some v := by
  intro m y hm hchain
  have hd : m = (m - 1) + 1 := by omega
  rw [hd, pIter_add] at hchain
  cases hw : pIter t (m - 1) y with
  | none => rw [hw] at hchain; cases hchain
  | some w =>
    rw [hw] at hchain
    have : pIter t 1 w = some v := hchain
    rw [pIter_one] at this
    exact h w this

/-- An `s'`-chain from a node other than the modified one down to the
modified node yields an `s`-chain. -/
theorem chain_off_modified {s s' : Store} {id0 : Nat}
    (hoff : ∀ y, y ≠ id0 → pF s' y = pF s y) :
    ∀ m y, y ≠ id0 → pIter s' m y = some id0 →
      ∃ j, 0 < j ∧ pIter s j y = some id0 := by
  intro m
  induction m using Nat.strong_induction_on with
  | _ m ih =>
    intro y hy hchain
    cases m with
    | zero =>
      have : y = id0 := by simpa [pIter] using hchain
      exact absurd this hy
    | succ m' =>
      have hstep : (pF s' y).bind (pIter s' m') = some id0 := hchain
      cases hp : pF s' y with
      | none => rw [hp] at hstep; cases hstep
      | some z =>
        rw [hp] at hstep
        have hstep' : pIter s' m' z = some id0 := hstep
        have hpz : pF s y = some z := by rw [← hoff y hy]; exact hp
        by_cases hz : z = id0
        · subst hz
          exact ⟨1, by omega, by rw [pIter_one]; exact hpz⟩
        · obtain ⟨j, hj, hjchain⟩ := ih m' (by omega) z hz hstep'
          refine ⟨j + 1, by omega, ?_⟩
          rw [show j + 1 = 1 + j by omega, pIter_add, pIter_one, hpz]
          exact hjchain

/-! ## Effect of each operation on lookups and parent edges -/

theorem find?_ext {α : Type} {p q : α → Bool} (h : ∀ a, p a = q a) :
    ∀ l : List α, l.find? p = l.find? q := by
  intro l
  induction l with
  | nil => rfl
  | cons a l ih =>
    rw [List.find?_cons, List.find?_cons, h a]
    cases q a with
    | true => rfl
    | false => exact ih

theorem replaceNode_findByPk {s : Store} {i : Nat} {upd : CategoryNode}
    (hid : upd.id = i) (y : Nat) :
    findByPk (replaceNode s i upd) y =
      (findByPk s y).map (fun n => if n.id == i then upd else n) := by
  show (s.nodes.map _).find? _ = _
  rw [List.find?_map]
  rw [find?_ext (q := fun n => n.id == y) ?_ s.nodes]
  · rfl
  · intro n
    by_cases hni : n.id = i
    · simp [Function.comp, hni, hid]
    · simp [Function.comp, hni]

theorem replaceNode_pF_off {s : Store} {i : Nat} {upd : CategoryNode}
    (hid : upd.id = i) (y : Nat) (hy : y ≠ i) :
    pF (replaceNode s i upd) y = pF s y := by
  unfold pF
  rw [replaceNode_findByPk hid y]
  cases hf : findByPk s y with
  | none => rfl
  | some nd =>
    have hnd : nd.id = y := (findByPk_eq_some hf).2
    have hne : ¬nd.id = i := by rw [hnd]; exact hy
    simp [hne]

theorem replaceNode_pF_self {s : Store} {i : Nat} {c upd : CategoryNode}
    (hf : findByPk s i = some c) (hid : upd.id = i) :
    pF (replaceNode s i upd) i = upd.parentId := by
  unfold pF
  rw [replaceNode_findByPk hid i, hf]
  have hci : c.id = i := (findByPk_eq_some hf).2
  simp [hci]

theorem replaceNode_findByPk_self {s : Store} {i : Nat} {c upd : CategoryNode}
    (hf : findByPk s i = some c) (hid : upd.id = i) :
    findByPk (replaceNode s i upd) i = some upd := by
  rw [replaceNode_findByPk hid i, hf]
  have hci : c.id = i := (findByPk_eq_some hf).2
  simp [hci]

theorem append_findByPk {s : Store} {node : CategoryNode} {m : Nat} (y : Nat) :
    findByPk (⟨s.nodes ++ [node], m⟩ : Store) y =
      (findByPk s y).or (if node.id == y then some node else none) := by
  show (s.nodes ++ [node]).find? _ = _
  rw [List.find?_append]
  congr 1
  cases hb : (node.id == y) <;> simp [List.find?, hb]

theorem append_pF_off {s : Store} {node : CategoryNode} {m : Nat} (y : Nat)
    (hy : y ≠ node.id) : pF (⟨s.nodes ++ [node], m⟩ : Store) y = pF s y := by
  unfold pF
  rw [append_findByPk y]
  have : (node.id == y) = false := beq_false_of_ne (fun h => hy h.symm)
  rw [this]
  cases findByPk s y <;> rfl

theorem append_pF_self {s : Store} {node : CategoryNode} {m : Nat}
    (hfresh : node.id ∉ idsOf s) :
    pF (⟨s.nodes ++ [node], m⟩ : Store) node.id = node.parentId := by
  unfold pF
  rw [append_findByPk node.id]
  have hnone : findByPk s node.id = none := by
    rw [findByPk_eq_none]
    intro nd hnd hcontra
    exact hfresh (hcontra ▸ List.mem_map_of_mem (fun n => n.id) hnd)
  simp [hnone]

theorem filter_findByPk {s : Store} {p : CategoryNode → Bool} {m : Nat}
    (hnd : (idsOf s).Nodup) (y : Nat) :
    findByPk (⟨s.nodes.filter p, m⟩ : Store) y = none ∨
      findByPk (⟨s.nodes.filter p, m⟩ : Store) y = findByPk s y := by
  cases hf : findByPk (⟨s.nodes.filter p, m⟩ : Store) y with
  | none => exact .inl rfl
  | some nd =>
    right
    obtain ⟨hmem, hid⟩ := findByPk_eq_some hf
    exact (findByPk_of_mem hnd (List.mem_of_mem_filter hmem) hid).symm

theorem filter_pF_sub {s : Store} {p : CategoryNode → Bool} {m : Nat}
    (hnd : (idsOf s).Nodup) (y : Nat) :
    pF (⟨s.nodes.filter p, m⟩ : Store) y = pF s y ∨
      pF (⟨s.nodes.filter p, m⟩ : Store) y = none := by
  rcases filter_findByPk (p := p) (m := m) hnd y with h | h
  · right; unfold pF; rw [h]; rfl
  · left; unfold pF; rw [h]

/-! ## Branch equations for the three mutating operations -/

theorem create_emptyName {s : Store} {p : JsVal} :
    createCategory s "" p = (.validationErr, s) := rfl

theorem create_notFound {s : Store} {name : String} {p : JsVal}
    (hn : name ≠ "") (ht : p.truthy = true)
    (hf : findByPkOpt s p.asId = none) :
    createCategory s name p = (.notFoundErr, s) := by
  unfold createCategory
  rw [if_neg (by simpa using hn), if_pos ht, hf]

theorem create_ok_truthy {s : Store} {name : String} {p : JsVal}
    {c : CategoryNode} (hn : name ≠ "") (ht : p.truthy = true)
    (hf : findByPkOpt s p.asId = some c) :
    createCategory s name p =
      (.created ⟨s.nextId, name, p.asId⟩,
        ⟨s.nodes ++ [⟨s.nextId, name, p.asId⟩], s.nextId + 1⟩) := by
  unfold createCategory
  rw [if_neg (by simpa using hn), if_pos ht, hf]

theorem create_ok_falsy {s : Store} {name : String} {p : JsVal}
    (hn : name ≠ "") (ht : p.truthy = false) :
    createCategory s name p =
      (.created ⟨s.nextId, name, none⟩,
        ⟨s.nodes ++ [⟨s.nextId, name, none⟩], s.nextId + 1⟩) := by
  unfold createCategory
  rw [if_neg (by simpa using hn), if_neg (by simp [ht])]

theorem update_notFound {s : Store} {id : Nat} {name : Option String}
    {p : JsVal} (hf : findByPk s id = none) :
    updateCategory s id name p = some (.notFoundErr, s) := by
  unfold updateCategory
  rw [hf]

theorem update_badParentKey {s : Store} {id : Nat} {name : Option String}
    {p : JsVal} {c : CategoryNode} (hf : findByPk s id = some c)
    (ht : p.truthy = true) (ha : p.asId = none) :
    updateCategory s id name p = some (.notFoundErr, s) := by
  unfold updateCategory
  rw [hf]
  simp only [if_pos ht, ha]

theorem update_parentMissing {s : Store} {id pid : Nat} {name : Option String}
    {p : JsVal} {c : CategoryNode} (hf : findByPk s id = some c)
    (ht : p.truthy = true) (ha : p.asId = some pid)
    (hpf : findByPk s pid = none) :
    updateCategory s id name p = some (.notFoundErr, s) := by
  unfold updateCategory
  rw [hf]
  simp only [if_pos ht, ha, hpf]

theorem update_selfParent {s : Store} {id pid : Nat} {name : Option String}
    {p : JsVal} {c pc : CategoryNode} (hf : findByPk s id = some c)
    (ht : p.truthy = true) (ha : p.asId = some pid)
    (hpf : findByPk s pid = some pc) (heq : pid = id) :
    updateCategory s id name p = some (.validationErr, s) := by
  unfold updateCategory
  rw [hf]
  simp only [if_pos ht, ha, hpf]
  rw [if_pos (by simpa using heq)]

theorem update_diverges {s : Store} {id pid : Nat} {name : Option String}
    {p : JsVal} {c pc : CategoryNode} (hf : findByPk s id = some c)
    (ht : p.truthy = true) (ha : p.asId = some pid)
    (hpf : findByPk s pid = some pc) (hne : pid ≠ id)
    (hdiv : findAllChildrenIds s (s.nodes.length + 1) id = none) :
    updateCategory s id name p = none := by
  unfold updateCategory
  rw [hf]
  simp only [if_pos ht, ha, hpf]
  rw [if_neg (by simpa using hne), hdiv]

theorem update_cycle {s : Store} {id pid : Nat} {name : Option String}
    {p : JsVal} {c pc : CategoryNode} {childIds : List Nat}
    (hf : findByPk s id = some c) (ht : p.truthy = true)
    (ha : p.asId = some pid) (hpf : findByPk s pid = some pc)
    (hne : pid ≠ id)
    (hch : findAllChildrenIds s (s.nodes.length + 1) id = some childIds)
    (hmem : pid ∈ childIds) :
    updateCategory s id name p = some (.validationErr, s) := by
  unfold updateCategory
  rw [hf]
  simp only [if_pos ht, ha, hpf]
  rw [if_neg (by simpa using hne), hch]
  simp [hmem]

theorem update_ok_truthy {s : Store} {id pid : Nat} {name : Option String}
    {p : JsVal} {c pc : CategoryNode} {childIds : List Nat}
    (hf : findByPk s id = some c) (ht : p.truthy = true)
    (ha : p.asId = some pid) (hpf : findByPk s pid = some pc)
    (hne : pid ≠ id)
    (hch : findAllChildrenIds s (s.nodes.length + 1) id = some childIds)
    (hmem : pid ∉ childIds) :
    updateCategory s id name p =
      some (.updated (applyUpdate c name p),
        replaceNode s id (applyUpdate c name p)) := by
  unfold updateCategory
  rw [hf]
  simp only [if_pos ht, ha, hpf]
  rw [if_neg (by simpa using hne), hch]
  simp [hmem]

theorem update_ok_falsy {s : Store} {id : Nat} {name : Option String}
    {p : JsVal} {c : CategoryNode} (hf : findByPk s id = some c)
    (ht : p.truthy = false) :
    updateCategory s id name p =
      some (.updated (applyUpdate c name p),
        replaceNode s id (applyUpdate c name p)) := by
  unfold updateCategory
  rw [hf]
  simp only [ht]
  rw [if_neg (by simp)]

theorem pairEq {α β : Type} {a c : α} {b d : β}
    (h : (some (a, b) : Option (α × β)) = some (c, d)) : c = a ∧ d = b := by
  injection h with h1
  injection h1 with h2 h3
  exact ⟨h2.symm, h3.symm⟩

/-- The next auto-increment key is not among the stored keys. -/
theorem nextId_fresh {s : Store} (hWF : storeWF s = true) :
    s.nextId ∉ idsOf s := by
  intro hmem
  obtain ⟨nd, hnd, hid⟩ := List.mem_map.1 hmem
  have := (storeWF_idBounds hWF nd hnd).2
  omega

/-- Appending a fresh row whose parent (if any) is an existing row keeps the
store a forest. -/
theorem forest_append {s : Store} {node : CategoryNode} {m : Nat}
    (hWF : storeWF s = true) (hF : Forest s) (hfresh : node.id ∉ idsOf s)
    (hpar : node.parentId = none ∨
      ∃ p, node.parentId = some p ∧ p ∈ idsOf s) :
    Forest (⟨s.nodes ++ [node], m⟩ : Store) := by
  have hoff : ∀ y, y ≠ node.id →
      pF (⟨s.nodes ++ [node], m⟩ : Store) y = pF s y :=
    fun y hy => append_pF_off y hy
  have hnoin : ∀ w, pF (⟨s.nodes ++ [node], m⟩ : Store) w ≠ some node.id := by
    intro w hw
    by_cases hwn : w = node.id
    · subst hwn
      rw [append_pF_self hfresh] at hw
      rcases hpar with h | ⟨p, hp, hpmem⟩
      · rw [h] at hw; cases hw
      · rw [hp] at hw
        injection hw with hw'
        exact hfresh (hw' ▸ hpmem)
    · rw [hoff w hwn] at hw
      obtain ⟨nd, hnd, _, hpid⟩ := pF_eq_some hw
      exact hfresh (storeWF_fk hWF nd hnd node.id hpid)
  exact forest_of_update hoff hF
    (fun n hn => no_incoming_chain hnoin n node.id hn)

/-- Replacing one row — keeping its key, and pointing its parent either to
nothing, to its previous parent, or to a non-descendant other node — keeps
the store a forest. -/
theorem forest_replaceNode {s : Store} {id : Nat} {c upd : CategoryNode}
    (hWF : storeWF s = true) (hF : Forest s)
    (hfind : findByPk s id = some c) (hid : upd.id = id)
    (hpar : upd.parentId = none ∨ upd.parentId = c.parentId ∨
      ∃ pid, upd.parentId = some pid ∧ pid ≠ id ∧ ¬Descendant s id pid) :
    Forest (replaceNode s id upd) := by
  have hnd := storeWF_nodup hWF
  have hoff : ∀ y, y ≠ id → pF (replaceNode s id upd) y = pF s y :=
    fun y hy => replaceNode_pF_off hid y hy
  have hself : pF (replaceNode s id upd) id = upd.parentId :=
    replaceNode_pF_self hfind hid
  rcases hpar with hnone | hsame | ⟨pid, hpid, hne, hnotdesc⟩
  · -- the row becomes a root: the edges shrink
    apply forest_of_subEdges ?_ hF
    intro y
    by_cases hy : y = id
    · subst hy
      right
      rw [hself, hnone]
    · exact .inl (hoff y hy)
  · -- the parent is unchanged: the edges are unchanged
    have hsamepf : ∀ y, pF (replaceNode s id upd) y = pF s y := by
      intro y
      by_cases hy : y = id
      · rw [hy, hself, hsame]
        have hcid : c.id = id := (findByPk_eq_some hfind).2
        rw [← hcid, pF_of_node hnd (findByPk_eq_some hfind).1]
      · exact hoff y hy
    intro x n hn hcyc
    rw [pIter_congr hsamepf n x] at hcyc
    exact hF x n hn hcyc
  · -- re-pointed to a non-descendant: no cycle through the row can close
    apply forest_of_update hoff hF
    intro n hn hcyc
    have hstep : (pF (replaceNode s id upd) id).bind
        (pIter (replaceNode s id upd) (n - 1)) = some id := by
      have hd : n = 1 + (n - 1) := by omega
      rw [hd, pIter_add, pIter_one] at hcyc
      exact hcyc
    rw [hself, hpid] at hstep
    have hstep' : pIter (replaceNode s id upd) (n - 1) pid = some id := hstep
    rcases Nat.eq_zero_or_pos (n - 1) with h0 | hpos
    · rw [h0] at hstep'
      exact hne (by simpa [pIter] using hstep')
    · obtain ⟨j, hj, hjchain⟩ :=
        chain_off_modified hoff (n - 1) pid hne hstep'
      exact hnotdesc ⟨j, hj, hjchain⟩

/-- `createCategory` preserves the forest invariant. -/
theorem forest_createCategory {s : Store} (hWF : storeWF s = true)
    (hF : Forest s) (name : String) (p : JsVal) :
    Forest (createCategory s name p).2 := by
  by_cases hn : name = ""
  · subst hn
    rw [create_emptyName]
    exact hF
  · by_cases ht : p.truthy = true
    · cases hfo : findByPkOpt s p.asId with
      | none =>
        rw [create_notFound hn ht hfo]
        exact hF
      | some c =>
        rw [create_ok_truthy hn ht hfo]
        apply forest_append hWF hF (nextId_fresh hWF)
        right
        cases hasid : p.asId with
        | none => rw [hasid] at hfo; cases hfo
        | some pid =>
          rw [hasid] at hfo
          refine ⟨pid, rfl, ?_⟩
          obtain ⟨hmem, hid⟩ := findByPk_eq_some hfo
          exact hid ▸ List.mem_map_of_mem (fun n => n.id) hmem
    · rw [create_ok_falsy hn (by simpa using ht)]
      exact forest_append hWF hF (nextId_fresh hWF) (.inl rfl)

/-- `updateCategory` preserves the forest invariant whenever it returns. -/
theorem forest_updateCategory {s : Store} {id : Nat} {name : Option String}
    {p : JsVal} {out : UpdateOut} {s' : Store} (hWF : storeWF s = true)
    (hF : Forest s) (h : updateCategory s id name p = some (out, s')) :
    Forest s' := by
  cases hf : findByPk s id with
  | none =>
    rw [update_notFound hf] at h
    obtain ⟨-, rfl⟩ := pairEq h
    exact hF
  | some c =>
    have hcid : c.id = id := (findByPk_eq_some hf).2
    by_cases ht : p.truthy = true
    · cases ha : p.asId with
      | none =>
        rw [update_badParentKey hf ht ha] at h
        obtain ⟨-, rfl⟩ := pairEq h
        exact hF
      | some pid =>
        cases hpf : findByPk s pid with
        | none =>
          rw [update_parentMissing hf ht ha hpf] at h
          obtain ⟨-, rfl⟩ := pairEq h
          exact hF
        | some pc =>
          by_cases hne : pid = id
          · rw [update_selfParent hf ht ha hpf hne] at h
            obtain ⟨-, rfl⟩ := pairEq h
            exact hF
          · cases hch : findAllChildrenIds s (s.nodes.length + 1) id with
            | none =>
              rw [update_diverges hf ht ha hpf hne hch] at h
              cases h
            | some childIds =>
              by_cases hmem : pid ∈ childIds
              · rw [update_cycle hf ht ha hpf hne hch hmem] at h
                obtain ⟨-, rfl⟩ := pairEq h
                exact hF
              · rw [update_ok_truthy hf ht ha hpf hne hch hmem] at h
                obtain ⟨-, rfl⟩ := pairEq h
                apply forest_replaceNode hWF hF hf (by simp [applyUpdate, hcid])
                refine .inr (.inr ⟨pid, ?_, hne, ?_⟩)
                · have hpundef : (p == JsVal.undef) = false := by
                    cases p <;> simp_all [JsVal.truthy]
                  simp [applyUpdate, hpundef, ht, ha]
                · intro hdesc
                  exact hmem (findAllChildrenIds_complete hch hdesc)
    · rw [update_ok_falsy hf (by simpa using ht)] at h
      obtain ⟨-, rfl⟩ := pairEq h
      apply forest_replaceNode hWF hF hf (by simp [applyUpdate, hcid])
      by_cases hu : p = JsVal.undef
      · refine .inr (.inl ?_)
        simp [applyUpdate, hu]
      · refine .inl ?_
        have hpundef : (p == JsVal.undef) = false := by
          simpa using hu
        simp [applyUpdate, hpundef, ht]

/-- `deleteCategory` preserves the forest invariant. -/
theorem forest_deleteCategory {s : Store} (hWF : storeWF s = true)
    (hF : Forest s) (id : Nat) : Forest (deleteCategory s id).2 := by
  cases hf : findByPk s id with
  | none =>
    unfold deleteCategory
    rw [hf]
    exact hF
  | some c =>
    unfold deleteCategory
    rw [hf]
    exact forest_of_subEdges (filter_pF_sub (storeWF_nodup hWF)) hF

theorem delete_notFound {s : Store} {id : Nat} (hf : findByPk s id = none) :
    deleteCategory s id = (.notFoundErr, s) := by
  unfold deleteCategory
  rw [hf]

theorem delete_found {s : Store} {id : Nat} {c : CategoryNode}
    (hf : findByPk s id = some c) :
    deleteCategory s id =
      (.deleted (childNodes s id).length,
        ⟨s.nodes.filter (fun n => !(n.id == id || descB s n.id id)),
          s.nextId⟩) := by
  unfold deleteCategory
  rw [hf]

/-! ## What `deleteCategory` removes -/

theorem find?_filter_of_kept {α : Type} {p q : α → Bool} (l : List α)
    (h : ∀ a ∈ l, q a = true → p a = true) :
    (l.filter p).find? q = l.find? q := by
  induction l with
  | nil => rfl
  | cons a l ih =>
    have hrest : ∀ a ∈ l, q a = true → p a = true :=
      fun a ha => h a (List.mem_cons_of_mem _ ha)
    cases hq : q a with
    | true =>
      rw [List.filter_cons_of_pos (h a (List.mem_cons_self a l) hq)]
      rw [List.find?_cons, List.find?_cons, hq]
    | false =>
      cases hp : p a with
      | true =>
        rw [List.filter_cons_of_pos hp]
        rw [List.find?_cons, List.find?_cons, hq]
        exact ih hrest
      | false =>
        rw [List.filter_cons_of_neg (by simp [hp])]
        rw [List.find?_cons, hq]
        exact ih hrest

theorem delete_lookup_target {s : Store} {id : Nat} {c : CategoryNode}
    (hf : findByPk s id = some c) :
    findByPk (deleteCategory s id).2 id = none := by
  rw [delete_found hf]
  rw [findByPk_eq_none]
  intro nd hnd hcontra
  have := (List.mem_filter.1 hnd).2
  rw [hcontra] at this
  simp at this

theorem delete_lookup_desc {s : Store} {id : Nat} {c : CategoryNode}
    (hF : Forest s) (hf : findByPk s id = some c) {x : Nat}
    (hdesc : Descendant s id x) :
    findByPk (deleteCategory s id).2 x = none := by
  have hid_mem : id ∈ idsOf s := by
    obtain ⟨hmem, hcid⟩ := findByPk_eq_some hf
    exact hcid ▸ List.mem_map_of_mem (fun n => n.id) hmem
  have hdB : descB s x id = true := descB_of_descendant hF hid_mem hdesc
  rw [delete_found hf]
  rw [findByPk_eq_none]
  intro nd hnd hcontra
  have := (List.mem_filter.1 hnd).2
  rw [hcontra] at this
  simp [hdB] at this

theorem delete_lookup_other {s : Store} {id : Nat} {c : CategoryNode}
    (hf : findByPk s id = some c) {x : Nat} (hx : x ≠ id)
    (hnd : ¬Descendant s id x) :
    findByPk (deleteCategory s id).2 x = findByPk s x := by
  rw [delete_found hf]
  show (s.nodes.filter _).find? _ = _
  apply find?_filter_of_kept
  intro nd hmem hq
  have hndx : nd.id = x := by simpa using hq
  have hB : descB s nd.id id = false := by
    rw [hndx]
    cases hDB : descB s x id with
    | false => rfl
    | true => exact absurd (descendant_of_descB hDB) hnd
  rw [hndx] at hB
  simp [hndx, hx, hB]

/-! ## Claims -/

/-- C1 (counterexample): deleting root 1 of the Fiction chain — which has
one child and one grandchild, hence 2 descendants — reports
`affectedChildCategories = 1`, not the descendant count 2 the claim
requires. -/
theorem C1_counterexample :
    findByPk chain3 1 = some ⟨1, "Fiction", none⟩ ∧
    findAllChildrenIds chain3 4 1 = some [2, 3] ∧
    (deleteCategory chain3 1).1 = DeleteOut.deleted 1 ∧
    DeleteOut.deleted 1 ≠ DeleteOut.deleted 2 :=
  ⟨by decide, by decide, by decide, by decide⟩

/-- C1 (amended): for every existing node on a well-formed store,
`delete(id)` reports the count of the node's *direct* children only; deeper
descendants are removed by the cascade but not counted. -/
theorem C1_delete_reports_direct_children {s : Store} {id : Nat}
    {c : CategoryNode} (hWF : storeWF s = true)
    (hf : findByPk s id = some c) :
    (deleteCategory s id).1 =
      DeleteOut.deleted
        ((s.nodes.filter (fun n => pF s n.id == some id)).length) := by
  rw [delete_found hf]
  show DeleteOut.deleted (childNodes s id).length = _
  congr 1
  unfold childNodes
  congr 1
  apply List.filter_congr
  intro nd hnd
  rw [pF_of_node (storeWF_nodup hWF) hnd]

theorem C1_witness :
    storeWF chain3 = true ∧
    (deleteCategory chain3 1).1 =
      DeleteOut.deleted
        ((chain3.nodes.filter (fun n => pF chain3 n.id == some 1)).length) :=
  ⟨by decide,
    C1_delete_reports_direct_children (c := ⟨1, "Fiction", none⟩)
      (by decide) (by decide)⟩

/-- C2: the source traversal keeps no visited-set, so on the corrupted
two-cycle store the recursion exceeds every depth budget — the JavaScript
call never terminates — contradicting the claim (and the spec's requirement
of a visited-set guard). -/
theorem C2_traversal_diverges_on_cycle :
    ∀ fuel, findAllChildrenIds cycStore fuel 1 = none := by
  have h1 : childIdsOf cycStore 1 = [2] := by decide
  have h2 : childIdsOf cycStore 2 = [1] := by decide
  have key : ∀ fuel, findChildrenAux cycStore fuel [2] = none ∧
      findChildrenAux cycStore fuel [1] = none := by
    intro fuel
    induction fuel with
    | zero => exact ⟨rfl, rfl⟩
    | succ f ih =>
      constructor
      · show goSiblings cycStore (findChildrenAux cycStore f) [2] = none
        simp only [goSiblings, h2, ih.2]
      · show goSiblings cycStore (findChildrenAux cycStore f) [1] = none
        simp only [goSiblings, h1, ih.1]
  intro fuel
  show findChildrenAux cycStore fuel (childIdsOf cycStore 1) = none
  rw [h1]
  exact (key fuel).1

/-- C3 (counterexample): on the four-deep chain the code's listing carries
children and grandchildren only, so the great-grandchild is absent and the
output differs from the spec's arbitrary-depth recursive nesting; and with
the root filter enabled the query fails (the `ORDER BY` names non-joined
associations), so no listing restricted to roots is produced at all. -/
theorem C3_counterexample :
    (headChildren (headChildren (headChildren
      ((getAllCategories chain4 true).getD [])))).isEmpty = true ∧
    (headChildren (headChildren (headChildren
      (specListTree chain4 false)))).isEmpty = false ∧
    getAllCategories chain4 true ≠ some (specListTree chain4 false) ∧
    getAllCategories chain4 false = none := by
  refine ⟨by decide, by decide, ?_, rfl⟩
  intro heq
  have h1 : (headChildren (headChildren (headChildren
      ((getAllCategories chain4 true).getD [])))).isEmpty = true := by decide
  have h2 : (headChildren (headChildren (headChildren
      ((some (specListTree chain4 false)).getD [])))).isEmpty = false := by
    decide
  rw [heq] at h1
  rw [h1] at h2
  cases h2

/-- C3 (amended): with children included, `listTree` returns every node at
the top level and nests exactly two levels below it (children and
grandchildren; deeper descendants are omitted), ordered by name at every
produced level; with the root filter enabled the unconditional `ORDER BY`
on the non-joined `children` associations makes the query fail, and the
endpoint returns the 500 error path instead of any listing. -/
theorem C3_listTree_shape (s : Store) :
    getAllCategories s true = some ((sortByName s.nodes).map (specNest s 2)) ∧
    getAllCategories s false = none ∧
    List.Sorted byName (((getAllCategories s true).getD []).map catOf) := by
  have h0 : specNest s 0 = fun g => CatTree.node g [] := rfl
  have h1 : specNest s 1 = fun c =>
      CatTree.node c ((sortByName (childNodes s c.id)).map
        (fun g => CatTree.node g [])) := by
    funext c
    show CatTree.node c ((sortByName (childNodes s c.id)).map (specNest s 0)) = _
    rw [h0]
  have h2 : specNest s 2 = fun n =>
      CatTree.node n ((sortByName (childNodes s n.id)).map (fun c =>
        CatTree.node c ((sortByName (childNodes s c.id)).map (fun g =>
          CatTree.node g [])))) := by
    funext n
    show CatTree.node n ((sortByName (childNodes s n.id)).map (specNest s 1)) = _
    rw [h1]
  have htrue : getAllCategories s true =
      some ((sortByName s.nodes).map (specNest s 2)) := by
    rw [h2]
    rfl
  refine ⟨htrue, rfl, ?_⟩
  rw [htrue]
  show ((sortByName s.nodes).map (specNest s 2)).map catOf |> List.Sorted byName
  rw [List.map_map]
  have hcomp : (catOf ∘ specNest s 2) = fun n => n := by
    funext n
    rfl
  rw [hcomp, List.map_id']
  exact List.sorted_insertionSort byName s.nodes

/-- C4: when both `id` and `X` exist on a well-formed forest store,
`update(id, parentId := X)` fails with `ValidationError` exactly when `X` is
`id` itself or a descendant of `id` (leaving the store unchanged), and
otherwise succeeds and sets the node's parent to `X`. -/
theorem C4_update_cycle_guard {s : Store} {id X : Nat}
    {c d : CategoryNode} (hWF : storeWF s = true) (hF : Forest s)
    (hf : findByPk s id = some c) (hfx : findByPk s X = some d) :
    ∃ out s', updateCategory s id none (JsVal.num X) = some (out, s') ∧
      ((X = id ∨ Descendant s id X) →
        out = UpdateOut.validationErr ∧ s' = s) ∧
      (¬(X = id ∨ Descendant s id X) →
        ∃ c', out = UpdateOut.updated c' ∧ findByPk s' id = some c' ∧
          c'.parentId = some X ∧ c'.name = c.name) := by
  have hX1 : 1 ≤ X := mem_ids_pos hWF (by
    obtain ⟨hmem, hxid⟩ := findByPk_eq_some hfx
    exact hxid ▸ List.mem_map_of_mem (fun n => n.id) hmem)
  have ht : (JsVal.num X).truthy = true := by
    simp [JsVal.truthy]
    omega
  have ha : (JsVal.num X).asId = some X := rfl
  by_cases hXid : X = id
  · refine ⟨.validationErr, s, update_selfParent hf ht ha hfx hXid, ?_, ?_⟩
    · exact fun _ => ⟨rfl, rfl⟩
    · exact fun hcon => absurd (.inl hXid) hcon
  · obtain ⟨cs, hch⟩ := findAllChildrenIds_total (storeWF_nodup hWF) hF id
    by_cases hmem : X ∈ cs
    · refine ⟨.validationErr, s,
        update_cycle hf ht ha hfx hXid hch hmem, ?_, ?_⟩
      · exact fun _ => ⟨rfl, rfl⟩
      · intro hcon
        exact absurd (.inr (findAllChildrenIds_sound (storeWF_nodup hWF)
          hch hmem)) hcon
    · refine ⟨.updated (applyUpdate c none (JsVal.num X)),
        replaceNode s id (applyUpdate c none (JsVal.num X)),
        update_ok_truthy hf ht ha hfx hXid hch hmem, ?_, ?_⟩
      · intro hcase
        rcases hcase with h | h
        · exact absurd h hXid
        · exact absurd (findAllChildrenIds_complete hch h) hmem
      · intro _
        have hcid : c.id = id := (findByPk_eq_some hf).2
        refine ⟨applyUpdate c none (JsVal.num X), rfl, ?_, ?_, rfl⟩
        · exact replaceNode_findByPk_self hf (by simp [applyUpdate, hcid])
        · show (applyUpdate c none (JsVal.num X)).parentId = some X
          have hne0 : (X != 0) = true := by
            simp
            omega
          simp [applyUpdate, JsVal.truthy, hne0, JsVal.asId]

theorem C4_witness :
    ∃ out s', updateCategory twoRoots 1 none (JsVal.num 2) = some (out, s') ∧
      ((2 = 1 ∨ Descendant twoRoots 1 2) →
        out = UpdateOut.validationErr ∧ s' = twoRoots) ∧
      (¬(2 = 1 ∨ Descendant twoRoots 1 2) →
        ∃ c', out = UpdateOut.updated c' ∧ findByPk s' 1 = some c' ∧
          c'.parentId = some 2 ∧
          c'.name = (⟨1, "a", none⟩ : CategoryNode).name) :=
  C4_update_cycle_guard (c := ⟨1, "a", none⟩) (d := ⟨2, "b", none⟩)
    (by decide) (forestB_forest (by decide)) (by decide) (by decide)

/-- C5: re-parenting an existing node under itself is always rejected with
`ValidationError`, whatever the shape of the store, and the store is
unchanged. -/
theorem C5_self_parent_rejected {s : Store} {id : Nat} {c : CategoryNode}
    (nm : Option String) (hWF : storeWF s = true)
    (hf : findByPk s id = some c) :
    updateCategory s id nm (JsVal.num id) = some (.validationErr, s) := by
  have hid1 : 1 ≤ id := mem_ids_pos hWF (by
    obtain ⟨hmem, hxid⟩ := findByPk_eq_some hf
    exact hxid ▸ List.mem_map_of_mem (fun n => n.id) hmem)
  have ht : (JsVal.num id).truthy = true := by
    simp [JsVal.truthy]
    omega
  exact update_selfParent hf ht rfl hf rfl

theorem C5_witness :
    updateCategory chain3 2 none (JsVal.num 2) =
      some (UpdateOut.validationErr, chain3) :=
  C5_self_parent_rejected (c := ⟨2, "Sci-Fi", some 1⟩) none
    (by decide) (by decide)

/-- C6 (counterexample): `create("X", parentId := 0)` supplies a `parentId`
that matches no row, yet the call succeeds and inserts a root — it does not
fail with `NotFoundError` as the claim states, because `0` is falsy. -/
theorem C6_counterexample :
    findByPk emptyStore 0 = none ∧
    (createCategory emptyStore "X" (JsVal.num 0)).1 =
      CreateOut.created ⟨1, "X", none⟩ ∧
    (createCategory emptyStore "X" (JsVal.num 0)).1 ≠
      CreateOut.notFoundErr ∧
    (createCategory emptyStore "X" (JsVal.num 0)).2 ≠ emptyStore :=
  ⟨by decide, by decide, by decide, by decide⟩

/-- C6 (amended): `create` fails with `ValidationError` on an empty name,
and with `NotFoundError` when `parentId` is supplied *truthy* (non-null,
non-zero, non-empty) but matches no row — the store unchanged in both
cases; a falsy `parentId` is treated as absent and yields a root.
Otherwise exactly one row with the fresh id `nextId` is appended and
returned, and the fresh id exceeds every stored id (ids are never
reused). -/
theorem C6_create_behaviour {s : Store} (name : String) (p : JsVal)
    (hWF : storeWF s = true) :
    (name = "" → createCategory s name p = (.validationErr, s)) ∧
    (name ≠ "" → p.truthy = true → findByPkOpt s p.asId = none →
      createCategory s name p = (.notFoundErr, s)) ∧
    (name ≠ "" → p.truthy = false →
      createCategory s name p =
        (.created ⟨s.nextId, name, none⟩,
          ⟨s.nodes ++ [⟨s.nextId, name, none⟩], s.nextId + 1⟩)) ∧
    (name ≠ "" → p.truthy = true →
      ∀ pc, findByPkOpt s p.asId = some pc →
        createCategory s name p =
          (.created ⟨s.nextId, name, p.asId⟩,
            ⟨s.nodes ++ [⟨s.nextId, name, p.asId⟩], s.nextId + 1⟩)) ∧
    (∀ nd ∈ s.nodes, nd.id < s.nextId) := by
  refine ⟨?_, ?_, ?_, ?_, fun nd hnd => (storeWF_idBounds hWF nd hnd).2⟩
  · intro h
    subst h
    exact create_emptyName
  · exact fun hn ht hfo => create_notFound hn ht hfo
  · exact fun hn ht => create_ok_falsy hn ht
  · exact fun hn ht pc hfo => create_ok_truthy hn ht hfo

theorem C6_witness :
    ("X" = "" → createCategory chain3 "X" JsVal.null =
      (.validationErr, chain3)) ∧
    ("X" ≠ "" → JsVal.null.truthy = true →
      findByPkOpt chain3 JsVal.null.asId = none →
      createCategory chain3 "X" JsVal.null = (.notFoundErr, chain3)) ∧
    ("X" ≠ "" → JsVal.null.truthy = false →
      createCategory chain3 "X" JsVal.null =
        (.created ⟨chain3.nextId, "X", none⟩,
          ⟨chain3.nodes ++ [⟨chain3.nextId, "X", none⟩],
            chain3.nextId + 1⟩)) ∧
    ("X" ≠ "" → JsVal.null.truthy = true →
      ∀ pc, findByPkOpt chain3 JsVal.null.asId = some pc →
        createCategory chain3 "X" JsVal.null =
          (.created ⟨chain3.nextId, "X", JsVal.null.asId⟩,
            ⟨chain3.nodes ++ [⟨chain3.nextId, "X", JsVal.null.asId⟩],
              chain3.nextId + 1⟩)) ∧
    (∀ nd ∈ chain3.nodes, nd.id < chain3.nextId) :=
  C6_create_behaviour "X" JsVal.null (by decide)

/-- C7: `delete(id)` removes `id` together with every member of the
descendant list computed before the delete, at every depth — afterwards
lookups for all of them fail — and removes nothing else. -/
theorem C7_delete_cascades {s : Store} {id : Nat} {c : CategoryNode}
    {ds : List Nat} (hWF : storeWF s = true) (hF : Forest s)
    (hf : findByPk s id = some c)
    (hch : findAllChildrenIds s (s.nodes.length + 1) id = some ds) :
    findByPk (deleteCategory s id).2 id = none ∧
    (∀ d ∈ ds, findByPk (deleteCategory s id).2 d = none) ∧
    (∀ x, x ≠ id → x ∉ ds →
      findByPk (deleteCategory s id).2 x = findByPk s x) := by
  refine ⟨delete_lookup_target hf, ?_, ?_⟩
  · intro d hd
    exact delete_lookup_desc hF hf
      (findAllChildrenIds_sound (storeWF_nodup hWF) hch hd)
  · intro x hx hnotin
    apply delete_lookup_other hf hx
    intro hdesc
    exact hnotin (findAllChildrenIds_complete hch hdesc)

theorem C7_witness :
    findByPk (deleteCategory chain3 1).2 1 = none ∧
    (∀ d ∈ [2, 3], findByPk (deleteCategory chain3 1).2 d = none) ∧
    (∀ x, x ≠ 1 → x ∉ [2, 3] →
      findByPk (deleteCategory chain3 1).2 x = findByPk chain3 x) :=
  C7_delete_cascades (c := ⟨1, "Fiction", none⟩)
    (by decide) (forestB_forest (by decide)) (by decide) (by decide)

/-- C8: the forest invariant — no node is its own ancestor under the parent
relation — holds in the initial empty store and is preserved by every
successful create, update and delete on a well-formed store. -/
theorem C8_forest_invariant :
    Forest emptyStore ∧
    (∀ s name p, storeWF s = true → Forest s →
      Forest (createCategory s name p).2) ∧
    (∀ s id name p out s', storeWF s = true → Forest s →
      updateCategory s id name p = some (out, s') → Forest s') ∧
    (∀ s id, storeWF s = true → Forest s →
      Forest (deleteCategory s id).2) := by
  refine ⟨forestB_forest (by decide), ?_, ?_, ?_⟩
  · exact fun s name p hWF hF => forest_createCategory hWF hF name p
  · exact fun s id name p out s' hWF hF h => forest_updateCategory hWF hF h
  · exact fun s id hWF hF => forest_deleteCategory hWF hF id

theorem C8_witness :
    Forest emptyStore ∧
    Forest (createCategory twoRoots "c" (JsVal.num 1)).2 ∧
    Forest (replaceNode twoRoots 1 ⟨1, "a", some 2⟩) ∧
    Forest (deleteCategory chain3 1).2 := by
  obtain ⟨h0, hc, hu, hd⟩ := C8_forest_invariant
  refine ⟨h0,
    hc twoRoots "c" (JsVal.num 1) (by decide) (forestB_forest (by decide)),
    ?_,
    hd chain3 1 (by decide) (forestB_forest (by decide))⟩
  exact hu twoRoots 1 none (JsVal.num 2)
    (UpdateOut.updated ⟨1, "a", some 2⟩)
    (replaceNode twoRoots 1 ⟨1, "a", some 2⟩)
    (by decide) (forestB_forest (by decide)) (by decide)

/-- C10: an update whose `parentId` is supplied but falsy (`null`, `0`, or
`""`) succeeds without any parent-existence, self-parent or cycle check —
the theorem needs no forest or well-formedness hypothesis, so it applies
even to corrupted stores — and sets the node's `parentId` to `null`,
making it a root. -/
theorem C10_falsy_parent_clears {s : Store} {id : Nat} {c : CategoryNode}
    (nm : Option String) {p : JsVal} (hf : findByPk s id = some c)
    (hp : p = JsVal.null ∨ p = JsVal.num 0 ∨ p = JsVal.str "") :
    updateCategory s id nm p =
      some (.updated ⟨id, nm.getD c.name, none⟩,
        replaceNode s id ⟨id, nm.getD c.name, none⟩) := by
  have hcid : c.id = id := (findByPk_eq_some hf).2
  have ht : p.truthy = false := by
    rcases hp with rfl | rfl | rfl <;> rfl
  have hpu : (p == JsVal.undef) = false := by
    rcases hp with rfl | rfl | rfl <;> rfl
  have happ : applyUpdate c nm p = ⟨id, nm.getD c.name, none⟩ := by
    simp [applyUpdate, hpu, ht, ← hcid]
  rw [update_ok_falsy hf ht, happ]

theorem C10_witness :
    updateCategory cycStore 1 none JsVal.null =
      some (.updated ⟨1, "a", none⟩,
        replaceNode cycStore 1 ⟨1, "a", none⟩) :=
  C10_falsy_parent_clears (c := ⟨1, "a", some 2⟩) none
    (by decide) (.inl rfl)

/-! ## Round trip of the price conversion -/

theorem digitChar_toNat {d : Nat} (hd : d < 10) :
    (Nat.digitChar d).toNat - 48 = d := by
  interval_cases d <;> decide

theorem digitChar_isDigit {d : Nat} (hd : d < 10) :
    (Nat.digitChar d).isDigit = true := by
  interval_cases d <;> decide

theorem digitChar_ne_dot {d : Nat} (hd : d < 10) : Nat.digitChar d ≠ '.' := by
  interval_cases d <;> decide

theorem digitChar_ne_comma {d : Nat} (hd : d < 10) :
    Nat.digitChar d ≠ ',' := by
  interval_cases d <;> decide

theorem digitChar_ne_space {d : Nat} (hd : d < 10) :
    Nat.digitChar d ≠ ' ' := by
  interval_cases d <;> decide

theorem natStr_mem_digit {m : Nat} : ∀ c ∈ natStr m, ∃ d, d < 10 ∧
    c = Nat.digitChar d := by
  intro c hc
  unfold natStr at hc
  by_cases hm : m = 0
  · rw [if_pos hm] at hc
    simp at hc
    exact ⟨0, by omega, by rw [hc]; rfl⟩
  · rw [if_neg hm] at hc
    obtain ⟨d, hd, hdc⟩ := List.mem_map.1 hc
    exact ⟨d, Nat.digits_lt_base (by norm_num) (List.mem_reverse.1 hd),
      hdc.symm⟩

theorem pad3_mem_digit {m : Nat} (hm : m < 1000) : ∀ c ∈ pad3 m,
    ∃ d, d < 10 ∧ c = Nat.digitChar d := by
  intro c hc
  unfold pad3 at hc
  simp only [List.mem_cons, List.not_mem_nil, or_false] at hc
  rcases hc with hc | hc | hc
  · exact ⟨m / 100, by omega, hc⟩
  · exact ⟨m / 10 % 10, by omega, hc⟩
  · exact ⟨m % 10, by omega, hc⟩

theorem pad2_mem_digit {m : Nat} : ∀ c ∈ pad2 m,
    ∃ d, d < 10 ∧ c = Nat.digitChar d := by
  intro c hc
  unfold pad2 at hc
  simp only [List.mem_cons, List.not_mem_nil, or_false] at hc
  rcases hc with hc | hc
  · exact ⟨m / 10 % 10, by omega, hc⟩
  · exact ⟨m % 10, by omega, hc⟩

/-- The digit string of `m` for `m ≥ 1000` splits into the digit string of
`m / 1000` followed by the zero-padded last three digits. -/
theorem natStr_chunk {m : Nat} (hm : 1000 ≤ m) :
    natStr m = natStr (m / 1000) ++ pad3 (m % 1000) := by
  have h10 : (1 : Nat) < 10 := by norm_num
  have hm0 : 0 < m := by omega
  have hm1 : 0 < m / 10 := by omega
  have hm2 : 0 < m / 10 / 10 := by
    have : m / 10 / 10 = m / 100 := by
      rw [Nat.div_div_eq_div_mul]
    omega
  have hd : Nat.digits 10 m =
      m % 10 :: (m / 10) % 10 :: (m / 10 / 10) % 10 ::
        Nat.digits 10 (m / 10 / 10 / 10) := by
    rw [Nat.digits_def' h10 hm0, Nat.digits_def' h10 hm1,
      Nat.digits_def' h10 hm2]
  have e1000 : m / 10 / 10 / 10 = m / 1000 := by
    rw [Nat.div_div_eq_div_mul, Nat.div_div_eq_div_mul]
  have e100 : m / 10 / 10 = m / 100 := by
    rw [Nat.div_div_eq_div_mul]
  rw [e1000, e100] at hd
  have hq0 : m / 1000 ≠ 0 := by omega
  unfold natStr
  rw [if_neg (by omega), if_neg hq0, hd]
  simp only [List.reverse_cons, List.map_append, List.map_cons,
    List.map_nil, List.append_assoc]
  congr 1
  unfold pad3
  have e1 : m % 1000 / 100 = m / 100 % 10 := by omega
  have e2 : m % 1000 / 10 % 10 = m / 10 % 10 := by omega
  have e3 : m % 1000 % 10 = m % 10 := by omega
  rw [e1, e2, e3]
  rfl

theorem filter_eq_self_of {p : Char → Bool} {l : List Char}
    (h : ∀ a ∈ l, p a = true) : l.filter p = l := by
  induction l with
  | nil => rfl
  | cons a l ih =>
    rw [List.filter_cons_of_pos (h a (List.mem_cons_self a l))]
    rw [ih (fun a ha => h a (List.mem_cons_of_mem _ ha))]

/-- Removing the thousands separators from the grouped rendering leaves the
plain digit string. -/
theorem groupThousands_filter (m : Nat) :
    (groupThousands m).filter (fun c => c ≠ '.') = natStr m := by
  induction m using Nat.strong_induction_on with
  | _ m ih =>
    by_cases hm : m < 1000
    · rw [groupThousands, dif_pos hm]
      apply filter_eq_self_of
      intro a ha
      obtain ⟨d, hd, rfl⟩ := natStr_mem_digit a ha
      simp [digitChar_ne_dot hd]
    · rw [groupThousands, dif_neg hm, List.filter_append]
      rw [ih (m / 1000) (Nat.div_lt_self (by omega) (by norm_num))]
      rw [List.filter_cons_of_neg (by simp)]
      rw [filter_eq_self_of (fun a ha => by
        obtain ⟨d, hd, rfl⟩ := pad3_mem_digit (Nat.mod_lt m (by norm_num)) a ha
        simp [digitChar_ne_dot hd])]
      exact (natStr_chunk (by omega)).symm

theorem commaToDot_through {l : List Char} (h : ∀ a ∈ l, a ≠ ',') :
    ∀ t, commaToDot (l ++ ',' :: t) = l ++ '.' :: t := by
  induction l with
  | nil => intro t; rfl
  | cons a l ih =>
    intro t
    show commaToDot (a :: (l ++ ',' :: t)) = _
    unfold commaToDot
    rw [if_neg (h a (List.mem_cons_self a l))]
    rw [ih (fun a ha => h a (List.mem_cons_of_mem _ ha)) t]
    rfl

theorem takeWhile_append_stop {p : Char → Bool} {xs : List Char}
    (hxs : ∀ a ∈ xs, p a = true) {y : Char} (hy : p y = false)
    (t : List Char) :
    (xs ++ y :: t).takeWhile p = xs ∧ (xs ++ y :: t).dropWhile p = y :: t := by
  induction xs with
  | nil =>
    constructor
    · show (y :: t).takeWhile p = []
      rw [List.takeWhile_cons, hy]
      simp
    · show (y :: t).dropWhile p = y :: t
      rw [List.dropWhile_cons, hy]
      simp
  | cons a xs ih =>
    have ha : p a = true := hxs a (List.mem_cons_self a xs)
    obtain ⟨iht, ihd⟩ := ih (fun a ha' => hxs a (List.mem_cons_of_mem _ ha'))
    constructor
    · show ((a :: (xs ++ y :: t)).takeWhile p) = a :: xs
      rw [List.takeWhile_cons, ha]
      simp [iht]
    · show ((a :: (xs ++ y :: t)).dropWhile p) = y :: t
      rw [List.dropWhile_cons, ha]
      simpa using ihd

theorem takeWhile_all {p : Char → Bool} {l : List Char}
    (h : ∀ a ∈ l, p a = true) : l.takeWhile p = l := by
  induction l with
  | nil => rfl
  | cons a l ih =>
    rw [List.takeWhile_cons, h a (List.mem_cons_self a l)]
    simp [ih (fun a ha => h a (List.mem_cons_of_mem _ ha))]

theorem digitsVal_map (ds : List Nat) (h : ∀ d ∈ ds, d < 10) :
    digitsVal (ds.map Nat.digitChar) = ds.foldl (fun a d => 10 * a + d) 0 := by
  suffices hgen : ∀ acc, (ds.map Nat.digitChar).foldl
      (fun a c => 10 * a + (c.toNat - 48)) acc =
      ds.foldl (fun a d => 10 * a + d) acc from hgen 0
  induction ds with
  | nil => intro acc; rfl
  | cons d ds ih =>
    intro acc
    show (ds.map Nat.digitChar).foldl _ (10 * acc + ((Nat.digitChar d).toNat - 48)) = _
    rw [digitChar_toNat (h d (List.mem_cons_self d ds))]
    exact ih (fun d hd => h d (List.mem_cons_of_mem _ hd)) _

theorem foldl_base10_reverse (ds : List Nat) :
    ds.reverse.foldl (fun a d => 10 * a + d) 0 = Nat.ofDigits 10 ds := by
  rw [List.foldl_reverse]
  induction ds with
  | nil => rfl
  | cons d ds ih =>
    rw [List.foldr_cons, ih, Nat.ofDigits_cons]
    ring

theorem digitsVal_natStr (m : Nat) : digitsVal (natStr m) = m := by
  by_cases hm : m = 0
  · subst hm
    decide
  · unfold natStr
    rw [if_neg hm]
    rw [digitsVal_map _ (fun d hd =>
      Nat.digits_lt_base (by norm_num) (List.mem_reverse.1 hd))]
    rw [foldl_base10_reverse]
    exact Nat.ofDigits_digits 10 m

theorem digitsVal_pad2 {c : Nat} (hc : c < 100) : digitsVal (pad2 c) = c := by
  show 10 * (10 * 0 + ((Nat.digitChar (c / 10 % 10)).toNat - 48)) +
      ((Nat.digitChar (c % 10)).toNat - 48) = c
  rw [digitChar_toNat (by omega), digitChar_toNat (by omega)]
  omega

theorem natStr_head_digit (m : Nat) : ∃ h t, natStr m = h :: t ∧
    h.isDigit = true ∧ (h == ' ') = false := by
  cases hns : natStr m with
  | nil =>
    exfalso
    unfold natStr at hns
    by_cases hm : m = 0
    · rw [if_pos hm] at hns; cases hns
    · rw [if_neg hm] at hns
      have : Nat.digits 10 m ≠ [] := Nat.digits_ne_nil_iff_ne_zero.2 hm
      simp at hns
      exact this hns
  | cons h t =>
    have hmem : h ∈ natStr m := by rw [hns]; exact List.mem_cons_self h t
    obtain ⟨d, hd, rfl⟩ := natStr_mem_digit h hmem
    exact ⟨_, t, rfl, digitChar_isDigit hd,
      beq_false_of_ne (digitChar_ne_space hd)⟩

theorem parseFloatQ_eval (I c : Nat) (hc : c < 100) :
    parseFloatQ (' ' :: (natStr I ++ '.' :: pad2 c)) =
      (I : ℚ) + (c : ℚ) / 100 := by
  obtain ⟨h, t, hns, hdig, hsp⟩ := natStr_head_digit I
  have hdrop : ((' ' :: (natStr I ++ '.' :: pad2 c)).dropWhile
      (fun c => c == ' ')) = natStr I ++ '.' :: pad2 c := by
    rw [List.dropWhile_cons]
    simp only [beq_self_eq_true, if_true]
    rw [hns]
    show ((h :: (t ++ '.' :: pad2 c)).dropWhile (fun c => c == ' ')) = _
    rw [List.dropWhile_cons, hsp]
    simp
  have hdigits : ∀ a ∈ natStr I, a.isDigit = true := by
    intro a ha
    obtain ⟨d, hd, rfl⟩ := natStr_mem_digit a ha
    exact digitChar_isDigit hd
  obtain ⟨htake, hdropd⟩ :=
    takeWhile_append_stop (p := fun c => c.isDigit) hdigits
      (y := '.') (by decide) (pad2 c)
  have hfrac : (pad2 c).takeWhile (fun c => c.isDigit) = pad2 c :=
    takeWhile_all (fun a ha => by
      obtain ⟨d, hd, rfl⟩ := pad2_mem_digit a ha
      exact digitChar_isDigit hd)
  unfold parseFloatQ
  rw [hdrop, htake, hdropd]
  have hfp : fracPart ('.' :: pad2 c) = pad2 c := by
    show (pad2 c).takeWhile (fun c => c.isDigit) = pad2 c
    exact hfrac
  rw [hfp, digitsVal_natStr, digitsVal_pad2 hc]
  have hlen : (pad2 c).length = 2 := rfl
  rw [hlen]
  norm_num

/-- C9: the price conversions round-trip — for every non-negative decimal
`x` with at most two fractional digits (written exactly as `n / 100` for its
cent count `n`), `parsePrice (formatPrice x) = x`. -/
theorem C9_price_round_trip (n : Nat) :
    parsePrice (formatPrice n) = (n : ℚ) / 100 := by
  have hdata : (formatPrice n).data =
      'R' :: 'p' :: '.' :: ' ' ::
        (groupThousands (n / 100) ++ ',' :: pad2 (n % 100)) := rfl
  unfold parsePrice
  rw [if_neg (by rw [hdata]; simp)]
  rw [if_pos (by rw [hdata]; rfl)]
  rw [hdata]
  have hrepl : replaceFirst ['R', 'p', '.']
      ('R' :: 'p' :: '.' :: ' ' ::
        (groupThousands (n / 100) ++ ',' :: pad2 (n % 100))) =
      ' ' :: (groupThousands (n / 100) ++ ',' :: pad2 (n % 100)) := rfl
  rw [hrepl]
  have hfil : ((' ' :: (groupThousands (n / 100) ++ ',' :: pad2 (n % 100))).filter
      (fun c => c ≠ '.')) =
      ' ' :: (natStr (n / 100) ++ ',' :: pad2 (n % 100)) := by
    rw [List.filter_cons_of_pos (by decide), List.filter_append]
    rw [groupThousands_filter]
    rw [List.filter_cons_of_pos (by decide)]
    rw [filter_eq_self_of (fun a ha => by
      obtain ⟨d, hd, rfl⟩ := pad2_mem_digit a ha
      simp [digitChar_ne_dot hd])]
  rw [hfil]
  have hcomma : commaToDot
      (' ' :: (natStr (n / 100) ++ ',' :: pad2 (n % 100))) =
      ' ' :: (natStr (n / 100) ++ '.' :: pad2 (n % 100)) := by
    have hl : ∀ a ∈ ' ' :: natStr (n / 100), a ≠ ',' := by
      intro a ha
      rcases List.mem_cons.1 ha with rfl | ha'
      · decide
      · obtain ⟨d, hd, rfl⟩ := natStr_mem_digit a ha'
        exact digitChar_ne_comma hd
    have := commaToDot_through hl (pad2 (n % 100))
    simpa using this
  rw [hcomma]
  rw [parseFloatQ_eval (n / 100) (n % 100) (Nat.mod_lt n (by norm_num))]
  have hn : (n : ℚ) = 100 * ((n / 100 : Nat) : ℚ) + ((n % 100 : Nat) : ℚ) := by
    have h : n = 100 * (n / 100) + n % 100 := by omega
    calc (n : ℚ) = ((100 * (n / 100) + n % 100 : Nat) : ℚ) := by rw [← h]
      _ = 100 * ((n / 100 : Nat) : ℚ) + ((n % 100 : Nat) : ℚ) := by
          push_cast
          ring
  rw [hn]
  ring

end BookMgmt
